import Mathlib

/-!
# Statistics and chart-geometry engine: a shallow embedding

This file embeds the statistics and chart-geometry core of the Chartify
program (files `src/stats/calculator.rs`, `src/charts/plotter.rs`,
`src/charts/renderer.rs`) in Lean 4 and proves properties of the embedded
definitions.

Conventions of the embedding:

* `f64` values flowing through the engine are modelled by exact rationals
  (`ℚ`).  A NaN-aware wrapper type `F` (`F.nan` or `F.val q`) models the
  places where the Rust code produces or tests for `f64::NAN`.  Rounding
  error of binary floating point is outside the model, as usual for a
  rational shallow embedding; all branch conditions of the modelled code
  compare exactly.
* `f64::sqrt` and the Student's-t CDF of the `statrs` crate are external
  numeric routines; the embedded functions take them as explicit function
  parameters `sq : ℚ → ℚ` and `cdf : ℚ → ℚ → ℚ`.  Theorems that need facts
  about them state those facts as hypotheses.
* `Vec<f64>` becomes `List ℚ`; `sort_by(partial_cmp)` on finite values
  becomes `List.insertionSort (· ≤ ·)`.
* The polars `DataFrame` of `(group, data_type, value)` rows becomes a
  `List Row`.  `HashMap` results become association lists queried through
  `lookupKV`; hash-iteration-order independence is proved where the code
  iterates a map (the determinism claim).
* For the inverse-normal-CDF approximation (`normal_ppf`), whose
  monotonicity claim is analytic, a second embedding over `ℝ` with genuine
  `Real.sqrt` and `Real.log` is given further below.
-/

/-- A NaN-aware model of the `f64` values the engine stores: either a finite
rational value or NaN.  (Infinities never reach the fields modelled with
this type in the code under study; they are not represented.) -/
inductive F where
  | nan : F
  | val : ℚ → F
deriving DecidableEq, Repr

namespace F

/-- Models the Rust test `x.is_nan()`. -/
def isNan : F → Bool
  | nan => true
  | val _ => false

/-- Models the Rust comparison `x > 0.0` (false on NaN, as for `f64`). -/
def isPos : F → Bool
  | nan => false
  | val q => decide (0 < q)

/-- Subtraction with NaN propagation, as for `f64`. -/
def sub : F → F → F
  | val a, val b => val (a - b)
  | _, _ => nan

/-- Division with NaN propagation.  A zero divisor is mapped to NaN; in
`f64` a zero divisor yields `±∞` (or NaN for `0/0`), but every division the
embedded code performs on `F` values is guarded by a positivity test on the
divisor, so this case is unreachable. -/
def div : F → F → F
  | val a, val b => if b = 0 then nan else val (a / b)
  | _, _ => nan

end F

/-- One row of the input table handed to the engine: the three semantic
columns of the loaded CSV.  `value` is a finite rational (the loader hands
the engine non-null finite values). -/
structure Row where
  group : String
  dataType : String
  value : ℚ
deriving DecidableEq, Repr

/-- `GroupStats` (calculator.rs): per-group descriptive statistics plus the
comparison-to-control fields. -/
structure GroupStats where
  group_name : String
  count : ℕ
  mean : F
  median : F
  std : F
  variance : F
  p95 : F
  p05 : F
  std_diff_from_control : Option F
  p_value : Option F
  is_significant : Bool
deriving DecidableEq, Repr

/-- `impl Default for GroupStats` (calculator.rs): zero count, NaN numeric
fields, no control comparison, not significant. -/
def GroupStats.default : GroupStats :=
  { group_name := ""
    count := 0
    mean := F.nan
    median := F.nan
    std := F.nan
    variance := F.nan
    p95 := F.nan
    p05 := F.nan
    std_diff_from_control := none
    p_value := none
    is_significant := false }

/-- `StatsCalculator::percentile` (calculator.rs): linear-interpolation
percentile on an ascending-sorted slice.  Returns NaN for an empty slice.
`rank.floor() as usize` is modelled by `Int.toNat ∘ Int.floor`; the Rust
`as usize` conversion saturates at 0 for negative floats, as `Int.toNat`
does. -/
def percentile (sortedValues : List ℚ) (p : ℚ) : F :=
  let n := sortedValues.length
  if n = 0 then F.nan
  else if n = 1 then F.val (sortedValues.getD 0 0)
  else
    let rank := (p / 100) * ((n - 1 : ℕ) : ℚ)
    let lower := (⌊rank⌋).toNat
    let upper := min (⌈rank⌉).toNat (n - 1)
    let frac := rank - (lower : ℚ)
    if lower = upper then F.val (sortedValues.getD lower 0)
    else F.val (sortedValues.getD lower 0 * (1 - frac) + sortedValues.getD upper 0 * frac)

/-- `StatsCalculator::compute_descriptive_stats` (calculator.rs).  The
`f64::sqrt` used for the standard deviation is the parameter `sq`. -/
def compute_descriptive_stats (sq : ℚ → ℚ) (values : List ℚ) : GroupStats :=
  let n := values.length
  if n = 0 then GroupStats.default
  else
    let sorted := values.insertionSort (· ≤ ·)
    let mean := values.sum / (n : ℚ)
    let median :=
      if n % 2 = 0 then (sorted.getD (n / 2 - 1) 0 + sorted.getD (n / 2) 0) / 2
      else sorted.getD (n / 2) 0
    let variance :=
      if 1 < n then ((values.map (fun x => (x - mean) ^ 2)).sum) / ((n - 1 : ℕ) : ℚ)
      else 0
    let std := sq variance
    { group_name := ""
      count := n
      mean := F.val mean
      median := F.val median
      std := F.val std
      variance := F.val variance
      p95 := percentile sorted 95
      p05 := percentile sorted 5
      std_diff_from_control := none
      p_value := none
      is_significant := false }

/-- The sample mean as computed inline by `perform_ttest` (calculator.rs). -/
def list_mean (l : List ℚ) : ℚ := l.sum / (l.length : ℚ)

/-- The unbiased (`n − 1` denominator) sample variance as computed inline by
`perform_ttest` (calculator.rs).  The subtraction happens on the `f64` cast
of the length, hence `(l.length : ℚ) - 1`. -/
def unbiased_var (l : List ℚ) : ℚ :=
  ((l.map (fun x => (x - list_mean l) ^ 2)).sum) / ((l.length : ℚ) - 1)

/-- The argument of the square root in `perform_ttest`'s standard error
`se = (var1/n1 + var2/n2).sqrt()`. -/
def se_arg (g c : List ℚ) : ℚ :=
  unbiased_var g / (g.length : ℚ) + unbiased_var c / (c.length : ℚ)

/-- The Welch–Satterthwaite degrees of freedom computed by `perform_ttest`.
When both variances vanish the rational model evaluates `0 / 0` to `0`
where `f64` produces NaN; both fail the `StudentsT` construction below, so
the embedded control flow agrees with the code. -/
def welch_df (g c : List ℚ) : ℚ :=
  let v1 := unbiased_var g / (g.length : ℚ)
  let v2 := unbiased_var c / (c.length : ℚ)
  (v1 + v2) ^ 2 / (v1 ^ 2 / ((g.length : ℚ) - 1) + v2 ^ 2 / ((c.length : ℚ) - 1))

/-- `StatsCalculator::perform_ttest` (calculator.rs): Welch's two-sample
t-test.  `sq` models `f64::sqrt`; `cdf df x` models
`StudentsT::new(0, 1, df).cdf(x)` from statrs.  `StudentsT::new` succeeds
exactly when the degrees of freedom are positive (and not NaN), which the
model expresses as `0 < welch_df g c`. -/
def perform_ttest (sq : ℚ → ℚ) (cdf : ℚ → ℚ → ℚ) (g c : List ℚ) : F × Bool :=
  if (g.length : ℚ) < 2 ∨ (c.length : ℚ) < 2 then (F.nan, false)
  else
    let se := sq (se_arg g c)
    if se = 0 then (F.val 1, false)
    else
      let t := (list_mean g - list_mean c) / se
      let df := welch_df g c
      if 0 < df then
        let p := 2 * (1 - cdf df |t|)
        (F.val p, decide (p ≤ 0.05))
      else (F.nan, false)

/-- The rows of the table belonging to one data type: the
`filter(col("data_type").eq(lit(data_type)))` step of
`compute_data_type_stats` (calculator.rs). -/
def rows_for_type (table : List Row) (dt : String) : List Row :=
  table.filter (fun r => r.dataType == dt)

/-- `StatsCalculator::get_values_for_group` applied to the type-filtered
frame: the `value` column of the rows of one data type and one group. -/
def values_for (table : List Row) (dt g : String) : List ℚ :=
  ((rows_for_type table dt).filter (fun r => r.group == g)).map Row.value

/-- Insertion into the `HashMap<String, GroupStats>` result map: the new
binding shadows (removes) any previous binding of the same key. -/
def insertKV (k : String) (v : GroupStats) (m : List (String × GroupStats)) :
    List (String × GroupStats) :=
  (k, v) :: m.filter (fun kv => !(kv.1 == k))

/-- Lookup in the association-list model of the result map. -/
def lookupKV (m : List (String × GroupStats)) (g : String) : Option GroupStats :=
  match m with
  | [] => none
  | kv :: rest => if kv.1 == g then some kv.2 else lookupKV rest g

/-- `DataTypeStats` (calculator.rs). -/
structure DataTypeStats where
  data_type : String
  control_group : String
  group_stats : List (String × GroupStats)
deriving DecidableEq, Repr

/-- The loop body of `compute_data_type_stats` for one non-control group:
descriptive statistics, the standardized mean difference gated on
`control_std > 0.0 && !control_mean.is_nan()`, and the t-test gated on a
non-empty control sample. -/
def non_control_stats (sq : ℚ → ℚ) (cdf : ℚ → ℚ → ℚ) (table : List Row)
    (dt cg g : String) : GroupStats :=
  let controlValues := values_for table dt cg
  let cs := compute_descriptive_stats sq controlValues
  let values := values_for table dt g
  let gs0 := { compute_descriptive_stats sq values with group_name := g }
  let gs1 :=
    if cs.std.isPos && !cs.mean.isNan then
      { gs0 with std_diff_from_control := some (F.div (F.sub gs0.mean cs.mean) cs.std) }
    else gs0
  if controlValues ≠ [] then
    let pr := perform_ttest sq cdf values controlValues
    { gs1 with p_value := some pr.1, is_significant := pr.2 }
  else gs1

/-- The control-group entry inserted first by `compute_data_type_stats`. -/
def control_stats (sq : ℚ → ℚ) (table : List Row) (dt cg : String) : GroupStats :=
  { compute_descriptive_stats sq (values_for table dt cg) with group_name := cg }

/-- `StatsCalculator::compute_data_type_stats` with the iteration order of
the group loop made explicit (`groups`): the control entry is inserted
first, then each non-control group's entry.  The loop `continue`s on the
control name. -/
def compute_data_type_stats_with (sq : ℚ → ℚ) (cdf : ℚ → ℚ → ℚ) (table : List Row)
    (dt cg : String) (groups : List String) : DataTypeStats :=
  { data_type := dt
    control_group := cg
    group_stats :=
      groups.foldl
        (fun m g => if g == cg then m else insertKV g (non_control_stats sq cdf table dt cg g) m)
        (insertKV cg (control_stats sq table dt cg) []) }

/-- `StatsCalculator::compute_data_type_stats` (calculator.rs): the group
list is the deduplicated `group` column of the type-filtered frame (the
polars `unique()` call; its order is implementation-defined, and the
order-independence theorem below shows the result does not depend on it). -/
def compute_data_type_stats (sq : ℚ → ℚ) (cdf : ℚ → ℚ → ℚ) (table : List Row)
    (dt cg : String) : DataTypeStats :=
  compute_data_type_stats_with sq cdf table dt cg
    (((rows_for_type table dt).map Row.group).dedup)

/-- The box-plot statistics computed inside `ChartPlotter::draw_boxplot_chart`
(plotter.rs) and `StaticChartRenderer::draw_boxplot` (renderer.rs): naive
integer-division-index quartiles, IQR, and 1.5·IQR whiskers.  The plotter
reads the quartiles through `get(..).unwrap_or(0.0)`, modelled by `getD _ 0`;
the renderer indexes directly, which agrees on every non-empty sample. -/
structure BoxplotStats where
  q1 : ℚ
  median : ℚ
  q3 : ℚ
  whisker_low : ℚ
  whisker_high : ℚ
deriving DecidableEq, Repr

/-- The box-plot statistics of one group's raw values (plotter.rs lines
126–148, renderer.rs lines 393–405). -/
def boxplot_stats (values : List ℚ) : BoxplotStats :=
  let sorted := values.insertionSort (· ≤ ·)
  let n := sorted.length
  let q1 := sorted.getD (n / 4) 0
  let median := sorted.getD (n / 2) 0
  let q3 := sorted.getD (3 * n / 4) 0
  let iqr := q3 - q1
  let wlow := (sorted.find? (fun v => decide (q1 - 1.5 * iqr ≤ v))).getD q1
  let whigh := (sorted.reverse.find? (fun v => decide (v ≤ q3 + 1.5 * iqr))).getD q3
  { q1 := q1, median := median, q3 := q3, whisker_low := wlow, whisker_high := whigh }

/-- `f64::round`: round half away from zero. -/
def rust_round (x : ℚ) : ℤ :=
  if 0 ≤ x then ⌊x + 1/2⌋ else -⌊-x + 1/2⌋

/-- The duplicate-detection key of `ChartPlotter::beeswarm_positions`
(plotter.rs): `(y * precision).round() as i64` with `precision = 1e6`. -/
def round_key (y : ℚ) : ℤ := rust_round (y * 1000000)

/-- The indices holding a given rounded key, in increasing order: the
`Vec<usize>` accumulated per key by `beeswarm_positions` (indices are pushed
in enumeration order, so each vector is increasing). -/
def cluster_of (keys : List ℤ) (k : ℤ) : List ℕ :=
  (List.range keys.length).filter (fun i => keys.getD i 0 == k)

/-- The inner loop `for (i, &idx) in indices.iter().enumerate()
{ positions[idx] = start + i as f64 * step }` of `beeswarm_positions`. -/
def set_spread (start step : ℚ) : ℕ → List ℕ → List ℚ → List ℚ
  | _, [], ps => ps
  | i, idx :: rest, ps => set_spread start step (i + 1) rest (ps.set idx (start + (i : ℚ) * step))

/-- One iteration of the `for indices in value_indices.values()` loop of
`beeswarm_positions`: clusters of more than one index are spread
symmetrically, others are left alone. -/
def spread_cluster (c w : ℚ) (idxs : List ℕ) (ps : List ℚ) : List ℚ :=
  if 1 < idxs.length then
    let count := idxs.length
    let step := w / ((max count 2 - 1 : ℕ) : ℚ)
    let start := c - w / 2
    set_spread start step 0 idxs ps
  else ps

/-- `ChartPlotter::beeswarm_positions` with the iteration order over the
hash map's keys made explicit (`keyOrder`); the order-independence theorem
below shows any enumeration of the keys yields the same positions. -/
def beeswarm_aux (ys : List ℚ) (c w : ℚ) (keyOrder : List ℤ) : List ℚ :=
  let keys := ys.map round_key
  keyOrder.foldl (fun ps k => spread_cluster c w (cluster_of keys k) ps)
    (List.replicate ys.length c)

/-- `ChartPlotter::beeswarm_positions` (plotter.rs): empty input yields an
empty vector; otherwise every position starts at `center` and every
duplicate cluster is spread.  The deduplicated key list enumerates the hash
map's key set. -/
def beeswarm_positions (ys : List ℚ) (c w : ℚ) : List ℚ :=
  if ys.length = 0 then [] else beeswarm_aux ys c w ((ys.map round_key).dedup)

/-- The quantile positions built by `ChartPlotter::draw_qq_chart`
(plotter.rs lines 300–315): the i-th of n ascending-sorted values is paired
with the plotting position `i / (n − 1)` (`0.5` for a single sample), with
no probit transformation; the pair is `[quantile, value]`. -/
def plotter_qq_points (values : List ℚ) : List (ℚ × ℚ) :=
  let sorted := values.insertionSort (· ≤ ·)
  let n := sorted.length
  sorted.enum.map (fun iv => (if 1 < n then (iv.1 : ℚ) / ((n - 1 : ℕ) : ℚ) else 0.5, iv.2))

/-- Coefficient `a[0]` of the Acklam inverse-normal approximation, identical
in plotter.rs `normal_ppf` and renderer.rs `normal_ppf`. -/
def acklam_a0 : ℚ := -39.69683028665376

/-- Coefficient `a[1]`. -/
def acklam_a1 : ℚ := 220.9460984245205

/-- Coefficient `a[2]`. -/
def acklam_a2 : ℚ := -275.9285104469687

/-- Coefficient `a[3]`. -/
def acklam_a3 : ℚ := 138.3577518672690

/-- Coefficient `a[4]`. -/
def acklam_a4 : ℚ := -30.66479806614716

/-- Coefficient `a[5]`. -/
def acklam_a5 : ℚ := 2.506628277459239

/-- Coefficient `b[0]`. -/
def acklam_b0 : ℚ := -54.47609879822406

/-- Coefficient `b[1]`. -/
def acklam_b1 : ℚ := 161.5858368580409

/-- Coefficient `b[2]`. -/
def acklam_b2 : ℚ := -155.6989798598866

/-- Coefficient `b[3]`. -/
def acklam_b3 : ℚ := 66.80131188771972

/-- Coefficient `b[4]`. -/
def acklam_b4 : ℚ := -13.28068155288572

/-- Coefficient `c[0]`. -/
def acklam_c0 : ℚ := -0.007784894002430293

/-- Coefficient `c[1]`. -/
def acklam_c1 : ℚ := -0.3223964580411365

/-- Coefficient `c[2]`. -/
def acklam_c2 : ℚ := -2.400758277161838

/-- Coefficient `c[3]`. -/
def acklam_c3 : ℚ := -2.549732539343734

/-- Coefficient `c[4]`. -/
def acklam_c4 : ℚ := 4.374664141464968

/-- Coefficient `c[5]`. -/
def acklam_c5 : ℚ := 2.938163982698783

/-- Coefficient `d[0]`. -/
def acklam_d0 : ℚ := 0.007784695709041462

/-- Coefficient `d[1]`. -/
def acklam_d1 : ℚ := 0.3224671290700398

/-- Coefficient `d[2]`. -/
def acklam_d2 : ℚ := 2.445134137142996

/-- Coefficient `d[3]`. -/
def acklam_d3 : ℚ := 3.754408661907416

/-- The tail/center breakpoint `p_low = 0.02425` of both `normal_ppf`
implementations. -/
def acklam_p_low : ℚ := 0.02425

/-- The three-branch core of `normal_ppf`, shared verbatim (same
coefficients, same branch conditions) by plotter.rs and renderer.rs.
`sq` and `ln` model `f64::sqrt` and `f64::ln` in the tail substitution
`q = (-2 ln p).sqrt()`. -/
def normal_ppf_core (sq ln : ℚ → ℚ) (p : ℚ) : ℚ :=
  if p < acklam_p_low then
    let q := sq (-2 * ln p)
    (((((acklam_c0 * q + acklam_c1) * q + acklam_c2) * q + acklam_c3) * q + acklam_c4) * q +
        acklam_c5) /
      ((((acklam_d0 * q + acklam_d1) * q + acklam_d2) * q + acklam_d3) * q + 1)
  else if p ≤ 1 - acklam_p_low then
    let q := p - 0.5
    let r := q * q
    (((((acklam_a0 * r + acklam_a1) * r + acklam_a2) * r + acklam_a3) * r + acklam_a4) * r +
          acklam_a5) * q /
      (((((acklam_b0 * r + acklam_b1) * r + acklam_b2) * r + acklam_b3) * r + acklam_b4) * r + 1)
  else
    let q := sq (-2 * ln (1 - p))
    (-(((((acklam_c0 * q + acklam_c1) * q + acklam_c2) * q + acklam_c3) * q + acklam_c4) * q +
          acklam_c5)) /
      ((((acklam_d0 * q + acklam_d1) * q + acklam_d2) * q + acklam_d3) * q + 1)

/-- `StaticChartRenderer::normal_ppf` (renderer.rs): the Acklam core with
out-of-range sentinels `−3.5`/`3.5`.  (`ChartPlotter::normal_ppf` in
plotter.rs is the same function with sentinels `−∞`/`+∞` instead; on the
open interval `(0, 1)` the two are identical.) -/
def normal_ppf_renderer (sq ln : ℚ → ℚ) (p : ℚ) : ℚ :=
  if p ≤ 0 then -3.5
  else if 1 ≤ p then 3.5
  else normal_ppf_core sq ln p

/-- The `(normal score, value)` pairs built by
`StaticChartRenderer::draw_qq_plot` (renderer.rs lines 649–658) before the
pixel mapping: the i-th of n ascending-sorted values is paired with
`normal_ppf((i + 0.5) / n)`. -/
def renderer_qq_points (sq ln : ℚ → ℚ) (values : List ℚ) : List (ℚ × ℚ) :=
  let sorted := values.insertionSort (· ≤ ·)
  let n := sorted.length
  sorted.enum.map (fun iv => (normal_ppf_renderer sq ln (((iv.1 : ℚ) + 0.5) / (n : ℚ)), iv.2))

unseal Rat.add Rat.mul Rat.sub Rat.inv Rat.ofScientific in
example : percentile [1, 2, 3, 4] 50 = F.val (5/2) := by decide

unseal Rat.add Rat.mul Rat.sub Rat.inv Rat.ofScientific in
example : percentile [1, 2, 3] 50 = F.val 2 := by decide

unseal Rat.add Rat.mul Rat.sub Rat.inv Rat.ofScientific in
example : beeswarm_positions [5, 5, 5] 0 0.6 = [-0.3, 0, 0.3] := by decide

unseal Rat.add Rat.mul Rat.sub Rat.inv Rat.ofScientific in
example : boxplot_stats [1, 2, 3, 4, 5, 6, 7, 8] =
    { q1 := 3, median := 5, q3 := 7, whisker_low := 1, whisker_high := 8 } := by decide

unseal Rat.add Rat.mul Rat.sub Rat.inv Rat.ofScientific in
example : plotter_qq_points [7] = [(0.5, 7)] := by decide

unseal Rat.add Rat.mul Rat.sub Rat.inv Rat.ofScientific in
example : renderer_qq_points (fun x => x) (fun x => x) [7] = [(0, 7)] := by decide

/-! ## Polynomial machinery for the real-number analysis of `normal_ppf`

To analyse the Acklam approximation over the actual real numbers (with the
genuine `Real.sqrt` and `Real.log` in place of the abstract `sq`/`ln`
parameters), we represent each polynomial of the source's Horner forms by
its little-endian coefficient list and develop a small verified toolkit:
evaluation over ℚ and ℝ, sum/product/scaling/Taylor-shift of coefficient
lists, formal derivatives, and a certified positivity checker on an
interval driven by rational arithmetic only. -/

def polyEvalQ : List ℚ → ℚ → ℚ
  | [], _ => 0
  | c :: rest, x => c + x * polyEvalQ rest x

noncomputable def polyEvalR : List ℚ → ℝ → ℝ
  | [], _ => 0
  | c :: rest, x => (c : ℝ) + x * polyEvalR rest x

def addPoly : List ℚ → List ℚ → List ℚ
  | [], ys => ys
  | x :: xs, [] => x :: xs
  | x :: xs, y :: ys => (x + y) :: addPoly xs ys

def scalePoly (a : ℚ) (cs : List ℚ) : List ℚ := cs.map (fun c => a * c)

def mulPoly : List ℚ → List ℚ → List ℚ
  | [], _ => []
  | c :: rest, ys => addPoly (scalePoly c ys) (0 :: mulPoly rest ys)

/-- Coefficients of `P(a + t)` as a polynomial in `t` (Taylor shift). -/
def shiftPoly : List ℚ → ℚ → List ℚ
  | [], _ => []
  | c :: rest, a =>
    let s := shiftPoly rest a
    addPoly [c] (addPoly (scalePoly a s) (0 :: s))

/-- Coefficients of the formal derivative. -/
def derivCoeffs : List ℚ → List ℚ
  | [] => []
  | _ :: rest => addPoly rest (0 :: derivCoeffs rest)

/-- Clamp every coefficient to be nonpositive. -/
def minPoly0 (cs : List ℚ) : List ℚ := cs.map (fun c => min c 0)

/-- A rational lower bound for `polyEval cs t` valid for all `0 ≤ t ≤ h`:
keep the constant term and clamp the tail coefficients to nonpositive
before evaluating at the right endpoint. -/
def lowBound (cs : List ℚ) (h : ℚ) : ℚ :=
  match cs with
  | [] => 0
  | c :: rest => c + h * polyEvalQ (minPoly0 rest) h

/-- Piecewise positivity certificate: on each grid cell `[a, b]` the shifted
polynomial's `lowBound` must be positive. -/
def checkPos (cs : List ℚ) : List ℚ → Bool
  | a :: b :: rest =>
    decide (0 < lowBound (shiftPoly cs a) (b - a)) && checkPos cs (b :: rest)
  | _ => true

/-- Membership of a real point in the union of the grid cells. -/
def covers : List ℚ → ℝ → Prop
  | a :: b :: rest, x => ((a : ℝ) ≤ x ∧ x ≤ (b : ℝ)) ∨ covers (b :: rest) x
  | _, _ => False

/-! The little-endian coefficient lists of the four Acklam polynomials,
assembled from the same named constants as the Horner forms above, together
with the numerators of the derivatives of the two rational branch
functions: writing `A'` for the formal derivative, `d/dp [A(r)·q / B(r)]`
with `r = q²`, `q = p − 1/2` has numerator
`N(r) = (2r·A'(r) + A(r))·B(r) − 2r·A(r)·B'(r)` over denominator `B(r)²`,
and `d/dq [C(q) / D(q)]` has numerator `P(q) = C'(q)·D(q) − C(q)·D'(q)`
over denominator `D(q)²`. -/

def acklam_A : List ℚ :=
  [acklam_a5, acklam_a4, acklam_a3, acklam_a2, acklam_a1, acklam_a0]

def acklam_B : List ℚ :=
  [1, acklam_b4, acklam_b3, acklam_b2, acklam_b1, acklam_b0]

def acklam_C : List ℚ :=
  [acklam_c5, acklam_c4, acklam_c3, acklam_c2, acklam_c1, acklam_c0]

def acklam_D : List ℚ :=
  [1, acklam_d3, acklam_d2, acklam_d1, acklam_d0]

def acklam_N : List ℚ :=
  addPoly (mulPoly (addPoly (scalePoly 2 (0 :: derivCoeffs acklam_A)) acklam_A) acklam_B)
    (scalePoly (-1) (mulPoly (scalePoly 2 (0 :: acklam_A)) (derivCoeffs acklam_B)))

def acklam_P : List ℚ :=
  addPoly (mulPoly (derivCoeffs acklam_C) acklam_D)
    (scalePoly (-1) (mulPoly acklam_C (derivCoeffs acklam_D)))

/-- `(0.47575)² = (1/2 − p_low)²`, the largest value `r = (p − 1/2)²`
attains on the central branch. -/
def qq_r_max : ℚ := 3621409/16000000

/-- A rational lower bound for `√(−2 ln p_low)`, the smallest `q` the tail
branches are ever evaluated at. -/
def qq_q_lo : ℚ := 2727393869/1000000000

/-- Positivity grid for `acklam_N` on `[0, qq_r_max]`. -/
def gridN : List ℚ :=
  [0, 3621409/128000000, 10864227/204800000, 612018121/8192000000,
    1227657651/13107200000, 57801309049/524288000000, 104655098691/838860800000,
    4612259095081/33554432000000, 7976091758547/53687091200000,
    180398537395549/1073741824000000, 784224256256023/4294967296000000,
    3324787345045573/17179869184000000, 2772564068049347/13743895347200000,
    29416653560686799/137438953472000000, 60524320001566927/274877906944000000,
    3621409/16000000]

/-- Positivity grid for `acklam_B` on `[0, qq_r_max]`. -/
def gridB : List ℚ :=
  [0, 3621409/64000000, 25349863/256000000, 133992133/1024000000,
    25349863/163840000, 2828320429/16384000000, 1307328649/6553600000,
    13953288877/65536000000, 3621409/16000000]

/-- The three-branch Acklam core over the genuine real numbers, with
`Real.sqrt` and `Real.log` in place of the abstract `sq`/`ln` parameters;
otherwise character-for-character the same Horner forms and branch
conditions as `normal_ppf_core`. -/
noncomputable def normal_ppf_core_real (p : ℝ) : ℝ :=
  if p < ((acklam_p_low : ℚ) : ℝ) then
    let q := Real.sqrt (-2 * Real.log p)
    ((((((acklam_c0 : ℝ) * q + (acklam_c1 : ℝ)) * q + (acklam_c2 : ℝ)) * q +
          (acklam_c3 : ℝ)) * q + (acklam_c4 : ℝ)) * q + (acklam_c5 : ℝ)) /
      (((((acklam_d0 : ℝ) * q + (acklam_d1 : ℝ)) * q + (acklam_d2 : ℝ)) * q +
          (acklam_d3 : ℝ)) * q + 1)
  else if p ≤ 1 - ((acklam_p_low : ℚ) : ℝ) then
    let q := p - 0.5
    let r := q * q
    ((((((acklam_a0 : ℝ) * r + (acklam_a1 : ℝ)) * r + (acklam_a2 : ℝ)) * r +
            (acklam_a3 : ℝ)) * r + (acklam_a4 : ℝ)) * r + (acklam_a5 : ℝ)) * q /
      ((((((acklam_b0 : ℝ) * r + (acklam_b1 : ℝ)) * r + (acklam_b2 : ℝ)) * r +
          (acklam_b3 : ℝ)) * r + (acklam_b4 : ℝ)) * r + 1)
  else
    let q := Real.sqrt (-2 * Real.log (1 - p))
    (-(((((((acklam_c0 : ℝ) * q + (acklam_c1 : ℝ)) * q + (acklam_c2 : ℝ)) * q +
            (acklam_c3 : ℝ)) * q + (acklam_c4 : ℝ)) * q + (acklam_c5 : ℝ)))) /
      (((((acklam_d0 : ℝ) * q + (acklam_d1 : ℝ)) * q + (acklam_d2 : ℝ)) * q +
          (acklam_d3 : ℝ)) * q + 1)

/-- `StaticChartRenderer::normal_ppf` (renderer.rs lines 178–231) over the
real numbers: the Acklam core with out-of-range sentinels `∓3.5`. -/
noncomputable def normal_ppf_real (p : ℝ) : ℝ :=
  if p ≤ 0 then -3.5
  else if 1 ≤ p then 3.5
  else normal_ppf_core_real p

/-- The central branch of the approximation as a function of `p`, written
with coefficient lists (used only to state and transport analytic facts;
`core_eq_center` proves it equal to the source's Horner form). -/
noncomputable def acklamCenter (p : ℝ) : ℝ :=
  polyEvalR acklam_A ((p - 0.5) * (p - 0.5)) * (p - 0.5) /
    polyEvalR acklam_B ((p - 0.5) * (p - 0.5))

/-- The lower-tail branch of the approximation as a function of
`q = √(−2 ln p)`, written with coefficient lists. -/
noncomputable def acklamTail (q : ℝ) : ℝ :=
  polyEvalR acklam_C q / polyEvalR acklam_D q

/-! ## Generic list helper lemmas -/

theorem getD_set_self {α : Type} (l : List α) (i : ℕ) (a d : α) (h : i < l.length) :
    (l.set i a).getD i d = a := by
  induction l generalizing i with
  | nil => simp at h
  | cons x xs ih =>
    cases i with
    | zero => rfl
    | succ j => exact ih j (by simpa using h)

theorem getD_set_ne {α : Type} (l : List α) (i j : ℕ) (a d : α) (h : i ≠ j) :
    (l.set i a).getD j d = l.getD j d := by
  induction l generalizing i j with
  | nil => rfl
  | cons x xs ih =>
    cases i with
    | zero =>
      cases j with
      | zero => exact absurd rfl h
      | succ m => rfl
    | succ i' =>
      cases j with
      | zero => rfl
      | succ m => exact ih i' m (fun hh => h (by rw [hh]))

theorem getD_eq_getElem {α : Type} (l : List α) (i : ℕ) (d : α) (h : i < l.length) :
    l.getD i d = l[i] := by
  simp [List.getD_eq_getElem?_getD, List.getElem?_eq_getElem h]

theorem getD_replicate_self {α : Type} (n j : ℕ) (c d : α) (h : j < n) :
    (List.replicate n c).getD j d = c := by
  simp [List.getD_eq_getElem?_getD, List.getElem?_replicate, h]

theorem getD_mem {α : Type} (l : List α) (i : ℕ) (d : α) (h : i < l.length) :
    l.getD i d ∈ l := by
  rw [getD_eq_getElem l i d h]
  exact List.getElem_mem h

/-! ## Association-list (hash map) helper lemmas -/

theorem lookupKV_filter_ne (m : List (String × GroupStats)) (k g : String) (h : g ≠ k) :
    lookupKV (m.filter (fun kv => !(kv.1 == k))) g = lookupKV m g := by
  induction m with
  | nil => rfl
  | cons kv rest ih =>
    rw [List.filter_cons]
    by_cases hk : kv.1 = k
    · have h1 : (!(kv.1 == k)) = false := by simp [hk]
      have h2 : (kv.1 == g) = false := by
        simp only [beq_eq_false_iff_ne]
        rw [hk]
        exact fun hh => h hh.symm
      rw [h1, if_neg (by simp)]
      rw [ih]
      conv_rhs => rw [lookupKV]
      rw [h2]
      simp
    · have h1 : (!(kv.1 == k)) = true := by simp [hk]
      rw [h1, if_pos rfl]
      rw [lookupKV, lookupKV, ih]

theorem lookupKV_insertKV (k : String) (v : GroupStats) (m : List (String × GroupStats))
    (g : String) :
    lookupKV (insertKV k v m) g = if g = k then some v else lookupKV m g := by
  unfold insertKV
  rw [lookupKV]
  by_cases h : g = k
  · have : (k == g) = true := by simp [h]
    rw [this, if_pos rfl, if_pos h]
  · have : (k == g) = false := by
      simp only [beq_eq_false_iff_ne]
      exact fun hh => h hh.symm
    rw [this, if_neg (by simp), if_neg h]
    exact lookupKV_filter_ne m k g h

theorem lookupKV_stats_fold (sq : ℚ → ℚ) (cdf : ℚ → ℚ → ℚ) (table : List Row)
    (dt cg : String) (groups : List String) (m : List (String × GroupStats)) (g : String) :
    lookupKV
        (groups.foldl
          (fun m gr =>
            if gr == cg then m else insertKV gr (non_control_stats sq cdf table dt cg gr) m)
          m) g =
      if g ≠ cg ∧ g ∈ groups then some (non_control_stats sq cdf table dt cg g)
      else lookupKV m g := by
  induction groups generalizing m with
  | nil => simp
  | cons a rest ih =>
    rw [List.foldl_cons, ih]
    by_cases hmem : g ≠ cg ∧ g ∈ rest
    · rw [if_pos hmem, if_pos ⟨hmem.1, List.mem_cons_of_mem a hmem.2⟩]
    · rw [if_neg hmem]
      by_cases ha : a = cg
      · have ha' : (a == cg) = true := by simp [ha]
        simp only [ha', if_true]
        have hcond : ¬(g ≠ cg ∧ g ∈ a :: rest) := by
          rintro ⟨h1, h2⟩
          rcases List.mem_cons.mp h2 with h3 | h3
          · exact h1 (h3.trans ha)
          · exact hmem ⟨h1, h3⟩
        rw [if_neg hcond]
      · have ha' : (a == cg) = false := by
          simp only [beq_eq_false_iff_ne]
          exact ha
        simp only [ha', Bool.false_eq_true, if_false]
        rw [lookupKV_insertKV]
        by_cases hg : g = a
        · subst hg
          rw [if_pos rfl, if_pos ⟨ha, List.mem_cons_self g rest⟩]
        · rw [if_neg hg]
          have hcond : ¬(g ≠ cg ∧ g ∈ a :: rest) := by
            rintro ⟨h1, h2⟩
            rcases List.mem_cons.mp h2 with h3 | h3
            · exact hg h3
            · exact hmem ⟨h1, h3⟩
          rw [if_neg hcond]

/-- The lookup characterization of `compute_data_type_stats_with`: the
control entry is always present, a non-control entry is present exactly for
the names in the processed group list, and nothing else is. -/
theorem lookupKV_stats_char (sq : ℚ → ℚ) (cdf : ℚ → ℚ → ℚ) (table : List Row)
    (dt cg : String) (groups : List String) (g : String) :
    lookupKV (compute_data_type_stats_with sq cdf table dt cg groups).group_stats g =
      if g ≠ cg ∧ g ∈ groups then some (non_control_stats sq cdf table dt cg g)
      else if g = cg then some (control_stats sq table dt cg)
      else none := by
  unfold compute_data_type_stats_with
  rw [lookupKV_stats_fold, lookupKV_insertKV]
  by_cases h1 : g ≠ cg ∧ g ∈ groups
  · simp [h1]
  · rw [if_neg h1, if_neg h1]
    by_cases h2 : g = cg
    · simp [h2]
    · simp [h2, lookupKV]

/-! ## Field lemmas for the descriptive statistics -/

theorem cds_p_value (sq : ℚ → ℚ) (v : List ℚ) :
    (compute_descriptive_stats sq v).p_value = none := by
  by_cases h : v.length = 0 <;> simp [compute_descriptive_stats, h, GroupStats.default]

theorem cds_is_significant (sq : ℚ → ℚ) (v : List ℚ) :
    (compute_descriptive_stats sq v).is_significant = false := by
  by_cases h : v.length = 0 <;> simp [compute_descriptive_stats, h, GroupStats.default]

theorem cds_std_diff (sq : ℚ → ℚ) (v : List ℚ) :
    (compute_descriptive_stats sq v).std_diff_from_control = none := by
  by_cases h : v.length = 0 <;> simp [compute_descriptive_stats, h, GroupStats.default]

theorem cds_std_nan_iff (sq : ℚ → ℚ) (v : List ℚ) :
    (compute_descriptive_stats sq v).std = F.nan ↔ v = [] := by
  by_cases h : v.length = 0
  · simp [compute_descriptive_stats, h, GroupStats.default, List.length_eq_zero.mp h]
  · simp only [compute_descriptive_stats, h, if_false]
    constructor
    · intro hh
      exact absurd hh (by simp)
    · intro hh
      exact absurd (by simp [hh] : v.length = 0) h

theorem cds_mean_nan_iff (sq : ℚ → ℚ) (v : List ℚ) :
    (compute_descriptive_stats sq v).mean = F.nan ↔ v = [] := by
  by_cases h : v.length = 0
  · simp [compute_descriptive_stats, h, GroupStats.default, List.length_eq_zero.mp h]
  · simp only [compute_descriptive_stats, h, if_false]
    constructor
    · intro hh
      exact absurd hh (by simp)
    · intro hh
      exact absurd (by simp [hh] : v.length = 0) h

/-- If the t-test reports significance, the p-value it returns is a finite
value at most the 0.05 threshold. -/
theorem perform_ttest_sig (sq : ℚ → ℚ) (cdf : ℚ → ℚ → ℚ) (g c : List ℚ)
    (h : (perform_ttest sq cdf g c).2 = true) :
    ∃ q, (perform_ttest sq cdf g c).1 = F.val q ∧ q ≤ 0.05 := by
  simp only [perform_ttest] at h ⊢
  split_ifs at h ⊢ with h1 h2 h3
  exact ⟨_, rfl, of_decide_eq_true (by simpa using h)⟩

/-- The fields of a non-control group entry, read off its definition. -/
theorem ncs_fields (sq : ℚ → ℚ) (cdf : ℚ → ℚ → ℚ) (table : List Row) (dt cg g : String) :
    (non_control_stats sq cdf table dt cg g).mean =
        (compute_descriptive_stats sq (values_for table dt g)).mean ∧
      (non_control_stats sq cdf table dt cg g).std_diff_from_control =
        (if (compute_descriptive_stats sq (values_for table dt cg)).std.isPos &&
            !(compute_descriptive_stats sq (values_for table dt cg)).mean.isNan then
          some
            (F.div
              (F.sub (compute_descriptive_stats sq (values_for table dt g)).mean
                (compute_descriptive_stats sq (values_for table dt cg)).mean)
              (compute_descriptive_stats sq (values_for table dt cg)).std)
        else none) := by
  simp only [non_control_stats]
  split_ifs with h1 h2 h3 <;> simp_all [cds_std_diff]

/-- The significance invariant for a non-control group entry. -/
theorem ncs_invariant (sq : ℚ → ℚ) (cdf : ℚ → ℚ → ℚ) (table : List Row) (dt cg g : String)
    (h : (non_control_stats sq cdf table dt cg g).is_significant = true) :
    ∃ q, (non_control_stats sq cdf table dt cg g).p_value = some (F.val q) ∧ q ≤ 0.05 := by
  simp only [non_control_stats] at h ⊢
  split_ifs at h ⊢ with h1 h2
  all_goals
    first
      | (exfalso
         revert h
         simp [cds_is_significant]
         done)
      | (obtain ⟨q, hq1, hq2⟩ := perform_ttest_sig sq cdf (values_for table dt g)
            (values_for table dt cg) (by simpa using h)
         exact ⟨q, by simp [hq1], hq2⟩)

/-- C6: in every `GroupStats` the engine produces — from
`compute_descriptive_stats`, from `perform_ttest`'s result pair, and from
the per-data-type orchestration `compute_data_type_stats` — a set
significance flag implies a present p-value that is at most 0.05.
(`compute_descriptive_stats` never sets the flag at all, which is stated
directly.) -/
theorem C6_theorem :
    (∀ (sq : ℚ → ℚ) (values : List ℚ),
        (compute_descriptive_stats sq values).is_significant = false ∧
          (compute_descriptive_stats sq values).p_value = none) ∧
      (∀ (sq : ℚ → ℚ) (cdf : ℚ → ℚ → ℚ) (g c : List ℚ),
          (perform_ttest sq cdf g c).2 = true →
            ∃ q, (perform_ttest sq cdf g c).1 = F.val q ∧ q ≤ 0.05) ∧
      ∀ (sq : ℚ → ℚ) (cdf : ℚ → ℚ → ℚ) (table : List Row) (dt cg g : String)
        (gs : GroupStats),
        lookupKV (compute_data_type_stats sq cdf table dt cg).group_stats g = some gs →
          gs.is_significant = true → ∃ q, gs.p_value = some (F.val q) ∧ q ≤ 0.05 := by
  refine ⟨fun sq values => ⟨cds_is_significant sq values, cds_p_value sq values⟩,
    fun sq cdf g c h => perform_ttest_sig sq cdf g c h, ?_⟩
  intro sq cdf table dt cg g gs hl hs
  rw [compute_data_type_stats, lookupKV_stats_char] at hl
  split_ifs at hl with h1 h2
  · obtain rfl : non_control_stats sq cdf table dt cg g = gs := by simpa using hl
    exact ncs_invariant sq cdf table dt cg g hs
  · obtain rfl : control_stats sq table dt cg = gs := by simpa using hl
    rw [control_stats] at hs
    simp [cds_is_significant] at hs

/-- The code's gate `control_std > 0.0 && !control_mean.is_nan()` is
equivalent to the specification's "control std is > 0 and is not NaN":
`isPos` already excludes NaN, and over finite input values the mean is NaN
exactly when the std is (both exactly for an empty sample). -/
theorem std_gate_iff (sq : ℚ → ℚ) (v : List ℚ) :
    ((compute_descriptive_stats sq v).std.isPos &&
        !(compute_descriptive_stats sq v).mean.isNan) = true ↔
      ((compute_descriptive_stats sq v).std.isPos = true ∧
        (compute_descriptive_stats sq v).std ≠ F.nan) := by
  constructor
  · intro h
    rw [Bool.and_eq_true] at h
    refine ⟨h.1, fun hnan => ?_⟩
    rw [hnan] at h
    simp [F.isPos] at h
  · rintro ⟨h1, h2⟩
    rw [Bool.and_eq_true]
    refine ⟨h1, ?_⟩
    have hv : v ≠ [] := fun hv => h2 ((cds_std_nan_iff sq v).mpr hv)
    have hm : ¬(compute_descriptive_stats sq v).mean = F.nan := fun hm =>
      hv ((cds_mean_nan_iff sq v).mp hm)
    cases hmean : (compute_descriptive_stats sq v).mean with
    | nan => exact absurd hmean hm
    | val q => simp [F.isNan]

/-- C7: a non-control group's `std_diff_from_control` is
`Some((mean − control_mean) / control_std)` exactly when the control
group's std is positive (and hence not NaN), and `None` otherwise. -/
theorem C7_theorem (sq : ℚ → ℚ) (cdf : ℚ → ℚ → ℚ) (table : List Row) (dt cg g : String)
    (gs : GroupStats) (hg : g ≠ cg)
    (hl : lookupKV (compute_data_type_stats sq cdf table dt cg).group_stats g = some gs) :
    ((compute_descriptive_stats sq (values_for table dt cg)).std.isPos = true ∧
        (compute_descriptive_stats sq (values_for table dt cg)).std ≠ F.nan →
      gs.std_diff_from_control =
        some
          (F.div (F.sub gs.mean (compute_descriptive_stats sq (values_for table dt cg)).mean)
            (compute_descriptive_stats sq (values_for table dt cg)).std)) ∧
    (¬((compute_descriptive_stats sq (values_for table dt cg)).std.isPos = true ∧
        (compute_descriptive_stats sq (values_for table dt cg)).std ≠ F.nan) →
      gs.std_diff_from_control = none) := by
  rw [compute_data_type_stats, lookupKV_stats_char] at hl
  split_ifs at hl with h1
  obtain rfl : non_control_stats sq cdf table dt cg g = gs := by simpa using hl
  obtain ⟨hmean, hdiff⟩ := ncs_fields sq cdf table dt cg g
  constructor
  · intro hcond
    have hgate := (std_gate_iff sq (values_for table dt cg)).mpr hcond
    rw [hdiff, if_pos hgate, hmean]
  · intro hcond
    have hgate : ¬((compute_descriptive_stats sq (values_for table dt cg)).std.isPos &&
        !(compute_descriptive_stats sq (values_for table dt cg)).mean.isNan) = true :=
      fun hgate => hcond ((std_gate_iff sq (values_for table dt cg)).mp hgate)
    rw [hdiff, if_neg hgate]

/-- C10: for every table and control-group name, the computed
`DataTypeStats` contains an entry under the control key with no p-value and
no significance flag; if the control name matches no row of that data type,
the entry is the phantom all-default record (count 0 and NaN statistics). -/
theorem C10_theorem (sq : ℚ → ℚ) (cdf : ℚ → ℚ → ℚ) (table : List Row) (dt cg : String) :
    ∃ gs, lookupKV (compute_data_type_stats sq cdf table dt cg).group_stats cg = some gs ∧
      gs.p_value = none ∧ gs.is_significant = false ∧
      (values_for table dt cg = [] →
        gs.count = 0 ∧ gs.mean = F.nan ∧ gs.median = F.nan ∧ gs.std = F.nan ∧
          gs.variance = F.nan) := by
  refine ⟨control_stats sq table dt cg, ?_, ?_, ?_, ?_⟩
  · rw [compute_data_type_stats, lookupKV_stats_char]
    simp
  · rw [control_stats]
    simp [cds_p_value]
  · rw [control_stats]
    simp [cds_is_significant]
  · intro h
    rw [control_stats, h]
    simp [compute_descriptive_stats, GroupStats.default]

unseal Rat.add Rat.mul Rat.sub Rat.inv Rat.ofScientific in
/-- Witness for C6: the invariant evaluated at concrete inputs — a
descriptive-statistics record, a significant t-test (constant-one CDF, so
p = 0), and a significant group entry of a computed `DataTypeStats`. -/
theorem C6_witness :
    ((compute_descriptive_stats (fun x => x) [5]).is_significant = false ∧
        (compute_descriptive_stats (fun x => x) [5]).p_value = none) ∧
      (∃ q, (perform_ttest (fun x => x) (fun _ _ => 1) [0, 1] [0, 1]).1 = F.val q ∧ q ≤ 0.05) ∧
      ∃ q,
        (non_control_stats (fun x => x) (fun _ _ => 1)
              [⟨"c", "d", 0⟩, ⟨"c", "d", 1⟩, ⟨"g", "d", 0⟩, ⟨"g", "d", 5⟩] "d" "c" "g").p_value =
            some (F.val q) ∧
          q ≤ 0.05 :=
  ⟨C6_theorem.1 (fun x => x) [5],
    C6_theorem.2.1 (fun x => x) (fun _ _ => 1) [0, 1] [0, 1] (by decide),
    C6_theorem.2.2 (fun x => x) (fun _ _ => 1)
      [⟨"c", "d", 0⟩, ⟨"c", "d", 1⟩, ⟨"g", "d", 0⟩, ⟨"g", "d", 5⟩] "d" "c" "g"
      (non_control_stats (fun x => x) (fun _ _ => 1)
        [⟨"c", "d", 0⟩, ⟨"c", "d", 1⟩, ⟨"g", "d", 0⟩, ⟨"g", "d", 5⟩] "d" "c" "g")
      (by decide) (by decide)⟩

unseal Rat.add Rat.mul Rat.sub Rat.inv Rat.ofScientific in
/-- Witness for C7: the standardized-difference gate evaluated at concrete
tables, once with a spread-out control sample (difference present) and once
with a zero-variance control sample (difference absent). -/
theorem C7_witness :
    ((non_control_stats (fun x => x) (fun _ _ => 1)
          [⟨"c", "d", 0⟩, ⟨"c", "d", 2⟩, ⟨"g", "d", 5⟩] "d" "c" "g").std_diff_from_control =
        some
          (F.div
            (F.sub
              (non_control_stats (fun x => x) (fun _ _ => 1)
                  [⟨"c", "d", 0⟩, ⟨"c", "d", 2⟩, ⟨"g", "d", 5⟩] "d" "c" "g").mean
              (compute_descriptive_stats (fun x => x)
                  (values_for [⟨"c", "d", 0⟩, ⟨"c", "d", 2⟩, ⟨"g", "d", 5⟩] "d" "c")).mean)
            (compute_descriptive_stats (fun x => x)
                (values_for [⟨"c", "d", 0⟩, ⟨"c", "d", 2⟩, ⟨"g", "d", 5⟩] "d" "c")).std)) ∧
      (non_control_stats (fun x => x) (fun _ _ => 1)
          [⟨"c", "d", 3⟩, ⟨"c", "d", 3⟩, ⟨"g", "d", 5⟩] "d" "c" "g").std_diff_from_control =
        none :=
  ⟨(C7_theorem (fun x => x) (fun _ _ => 1) [⟨"c", "d", 0⟩, ⟨"c", "d", 2⟩, ⟨"g", "d", 5⟩] "d" "c"
        "g" _ (by decide) (by decide)).1 (by decide),
    (C7_theorem (fun x => x) (fun _ _ => 1) [⟨"c", "d", 3⟩, ⟨"c", "d", 3⟩, ⟨"g", "d", 5⟩] "d" "c"
        "g" _ (by decide) (by decide)).2 (by decide)⟩

unseal Rat.add Rat.mul Rat.sub Rat.inv Rat.ofScientific in
/-- Witness for C10: a table whose rows never mention the requested control
group still yields a control entry, and it is the phantom default record. -/
theorem C10_witness :
    ∃ gs,
      lookupKV
            (compute_data_type_stats (fun x => x) (fun _ _ => 1)
                [⟨"g", "d", 1⟩, ⟨"g", "d", 2⟩] "d" "zzz").group_stats
            "zzz" =
          some gs ∧
        gs.p_value = none ∧ gs.is_significant = false ∧
        (values_for [⟨"g", "d", 1⟩, ⟨"g", "d", 2⟩] "d" "zzz" = [] →
          gs.count = 0 ∧ gs.mean = F.nan ∧ gs.median = F.nan ∧ gs.std = F.nan ∧
            gs.variance = F.nan) :=
  C10_theorem (fun x => x) (fun _ _ => 1) [⟨"g", "d", 1⟩, ⟨"g", "d", 2⟩] "d" "zzz"

/-! ## Beeswarm layout lemmas -/

theorem set_spread_length (start step : ℚ) (i : ℕ) (idxs : List ℕ) (ps : List ℚ) :
    (set_spread start step i idxs ps).length = ps.length := by
  induction idxs generalizing i ps with
  | nil => rfl
  | cons idx rest ih => rw [set_spread, ih, List.length_set]

theorem set_spread_not_mem (start step : ℚ) (i : ℕ) (idxs : List ℕ) (ps : List ℚ) (j : ℕ)
    (hj : j ∉ idxs) : (set_spread start step i idxs ps).getD j 0 = ps.getD j 0 := by
  induction idxs generalizing i ps with
  | nil => rfl
  | cons idx rest ih =>
    rw [set_spread, ih _ _ (fun hh => hj (List.mem_cons_of_mem idx hh))]
    exact getD_set_ne ps idx j _ 0 (fun hh => hj (hh ▸ List.mem_cons_self idx rest))

theorem set_spread_get (start step : ℚ) (idxs : List ℕ) (hnd : idxs.Nodup) (i : ℕ)
    (ps : List ℚ) (pos : ℕ) (hpos : pos < idxs.length)
    (hlen : idxs.get ⟨pos, hpos⟩ < ps.length) :
    (set_spread start step i idxs ps).getD (idxs.get ⟨pos, hpos⟩) 0 =
      start + ((i + pos : ℕ) : ℚ) * step := by
  induction idxs generalizing i ps pos with
  | nil => exact absurd hpos (by simp)
  | cons idx rest ih =>
    rcases List.nodup_cons.mp hnd with ⟨hidx, hrest⟩
    cases pos with
    | zero =>
      rw [set_spread]
      have : (idx :: rest).get ⟨0, hpos⟩ = idx := rfl
      rw [this] at hlen ⊢
      rw [set_spread_not_mem _ _ _ _ _ _ hidx]
      rw [getD_set_self ps idx _ 0 hlen]
      simp
    | succ p =>
      rw [set_spread]
      have hget : (idx :: rest).get ⟨p + 1, hpos⟩ = rest.get ⟨p, by simpa using hpos⟩ := rfl
      rw [hget] at hlen ⊢
      rw [ih hrest (i + 1) _ p (by simpa using hpos) (by simpa using hlen)]
      congr 1
      push_cast
      ring

theorem spread_cluster_length (c w : ℚ) (idxs : List ℕ) (ps : List ℚ) :
    (spread_cluster c w idxs ps).length = ps.length := by
  rw [spread_cluster]
  split
  · rw [set_spread_length]
  · rfl

theorem spread_cluster_not_mem (c w : ℚ) (idxs : List ℕ) (ps : List ℚ) (j : ℕ)
    (hj : j ∉ idxs) : (spread_cluster c w idxs ps).getD j 0 = ps.getD j 0 := by
  rw [spread_cluster]
  split
  · rw [set_spread_not_mem _ _ _ _ _ _ hj]
  · rfl

theorem cluster_of_nodup (keys : List ℤ) (k : ℤ) : (cluster_of keys k).Nodup :=
  (List.nodup_range keys.length).filter _

theorem mem_cluster_of (keys : List ℤ) (k : ℤ) (i : ℕ) :
    i ∈ cluster_of keys k ↔ i < keys.length ∧ keys.getD i 0 = k := by
  rw [cluster_of, List.mem_filter, List.mem_range]
  simp

/-- The central pointwise description of the beeswarm fold: after processing
any list of keys, the position of index `j` (whose own key is `k`) is the
spread formula if `k` was processed and `j`'s cluster has at least two
members, and is untouched otherwise. -/
theorem beeswarm_fold_getD (keys : List ℤ) (c w : ℚ) (j : ℕ) (hj : j < keys.length)
    (pos : ℕ) (hpos : pos < (cluster_of keys (keys.getD j 0)).length)
    (hjpos : (cluster_of keys (keys.getD j 0)).get ⟨pos, hpos⟩ = j) (keyOrder : List ℤ)
    (ps : List ℚ) (hlen : ps.length = keys.length) :
    (keyOrder.foldl (fun ps k => spread_cluster c w (cluster_of keys k) ps) ps).getD j 0 =
      if keys.getD j 0 ∈ keyOrder ∧ 1 < (cluster_of keys (keys.getD j 0)).length then
        c - w / 2 +
          (pos : ℚ) *
            (w / ((max (cluster_of keys (keys.getD j 0)).length 2 - 1 : ℕ) : ℚ))
      else ps.getD j 0 := by
  induction keyOrder generalizing ps with
  | nil => simp
  | cons k' rest ih =>
    rw [List.foldl_cons, ih _ (by rw [spread_cluster_length, hlen])]
    by_cases hA : keys.getD j 0 ∈ rest ∧ 1 < (cluster_of keys (keys.getD j 0)).length
    · rw [if_pos hA, if_pos ⟨List.mem_cons_of_mem k' hA.1, hA.2⟩]
    · rw [if_neg hA]
      by_cases hk : k' = keys.getD j 0
      · by_cases hbig : 1 < (cluster_of keys (keys.getD j 0)).length
        · have hset := set_spread_get (c - w / 2)
            (w / ((max (cluster_of keys (keys.getD j 0)).length 2 - 1 : ℕ) : ℚ))
            (cluster_of keys (keys.getD j 0)) (cluster_of_nodup keys (keys.getD j 0)) 0 ps pos
            hpos (by rw [hjpos, hlen]; exact hj)
          rw [hjpos] at hset
          rw [hk]
          simp only [spread_cluster]
          rw [if_pos hbig, hset, if_pos ⟨List.mem_cons_self _ rest, hbig⟩]
          simp
        · rw [hk]
          simp only [spread_cluster]
          rw [if_neg hbig, if_neg (fun hh => hbig hh.2)]
      · have hnot : j ∉ cluster_of keys k' := by
          rw [mem_cluster_of]
          rintro ⟨_, hh⟩
          exact hk hh.symm
        rw [spread_cluster_not_mem _ _ _ _ _ hnot]
        have : ¬(keys.getD j 0 ∈ k' :: rest ∧ 1 < (cluster_of keys (keys.getD j 0)).length) := by
          rintro ⟨hmem, hbig⟩
          rcases List.mem_cons.mp hmem with hh | hh
          · exact hk hh.symm
          · exact hA ⟨hh, hbig⟩
        rw [if_neg this]

theorem foldl_spread_length (keys : List ℤ) (c w : ℚ) (keyOrder : List ℤ) (ps : List ℚ) :
    (keyOrder.foldl (fun ps k => spread_cluster c w (cluster_of keys k) ps) ps).length =
      ps.length := by
  induction keyOrder generalizing ps with
  | nil => rfl
  | cons k rest ih => rw [List.foldl_cons, ih, spread_cluster_length]

theorem beeswarm_aux_length (ys : List ℚ) (c w : ℚ) (keyOrder : List ℤ) :
    (beeswarm_aux ys c w keyOrder).length = ys.length := by
  simp only [beeswarm_aux]
  rw [foldl_spread_length, List.length_replicate]

/-- Pointwise description of `beeswarm_positions`: the position of index `j`
is the symmetric spread formula when `j`'s rounded value occurs more than
once, and the center otherwise. -/
theorem beeswarm_getD_char (ys : List ℚ) (c w : ℚ) (j : ℕ) (hj : j < ys.length) (pos : ℕ)
    (hpos : pos < (cluster_of (ys.map round_key) ((ys.map round_key).getD j 0)).length)
    (hjpos : (cluster_of (ys.map round_key) ((ys.map round_key).getD j 0)).get ⟨pos, hpos⟩ = j) :
    (beeswarm_positions ys c w).getD j 0 =
      if 1 < (cluster_of (ys.map round_key) ((ys.map round_key).getD j 0)).length then
        c - w / 2 +
          (pos : ℚ) *
            (w /
              (((cluster_of (ys.map round_key) ((ys.map round_key).getD j 0)).length - 1 : ℕ) :
                ℚ))
      else c := by
  have hn : ¬ys.length = 0 := by omega
  rw [beeswarm_positions, if_neg hn]
  simp only [beeswarm_aux]
  rw [beeswarm_fold_getD (ys.map round_key) c w j (by simpa using hj) pos hpos hjpos _ _
    (by simp)]
  have hkmem : (ys.map round_key).getD j 0 ∈ (ys.map round_key).dedup := by
    rw [List.mem_dedup]
    exact getD_mem _ j 0 (by simpa using hj)
  by_cases hbig : 1 < (cluster_of (ys.map round_key) ((ys.map round_key).getD j 0)).length
  · rw [if_pos ⟨hkmem, hbig⟩, if_pos hbig]
    have hmax : max (cluster_of (ys.map round_key) ((ys.map round_key).getD j 0)).length 2 =
        (cluster_of (ys.map round_key) ((ys.map round_key).getD j 0)).length :=
      Nat.max_eq_left (by omega)
    rw [hmax]
  · rw [if_neg (fun hh => hbig hh.2), if_neg hbig]
    exact getD_replicate_self ys.length j c 0 hj

/-- Every valid index belongs to its own rounded-value cluster at some
position. -/
theorem mem_own_cluster (ys : List ℚ) (j : ℕ) (hj : j < ys.length) :
    ∃ (pos : ℕ) (hpos : pos <
        (cluster_of (ys.map round_key) ((ys.map round_key).getD j 0)).length),
      (cluster_of (ys.map round_key) ((ys.map round_key).getD j 0)).get ⟨pos, hpos⟩ = j := by
  have hmem : j ∈ cluster_of (ys.map round_key) ((ys.map round_key).getD j 0) := by
    rw [mem_cluster_of]
    exact ⟨by simpa using hj, rfl⟩
  obtain ⟨pos, hpos⟩ := List.mem_iff_get.mp hmem
  exact ⟨pos.1, pos.2, hpos⟩

/-- C9: the engine is deterministic despite its hash maps.  The per-group
loop of `compute_data_type_stats` may process the group names in any order
(polars `unique()` order, or any permutation of it) without changing any
group's resulting `GroupStats`, and `beeswarm_positions` may visit the
duplicate clusters of its internal hash map in any order without changing
the offset vector.  Both functions are pure, so two invocations on the same
input are definitionally identical; these two statements discharge the only
internal sources of nondeterminism. -/
theorem C9_theorem :
    (∀ (sq : ℚ → ℚ) (cdf : ℚ → ℚ → ℚ) (table : List Row) (dt cg : String)
        (groups1 groups2 : List String), groups1.Perm groups2 → ∀ g : String,
        lookupKV (compute_data_type_stats_with sq cdf table dt cg groups1).group_stats g =
          lookupKV (compute_data_type_stats_with sq cdf table dt cg groups2).group_stats g) ∧
      ∀ (ys : List ℚ) (c w : ℚ) (ko1 ko2 : List ℤ), ko1.Perm ko2 →
        beeswarm_aux ys c w ko1 = beeswarm_aux ys c w ko2 := by
  constructor
  · intro sq cdf table dt cg groups1 groups2 hperm g
    rw [lookupKV_stats_char, lookupKV_stats_char]
    by_cases h1 : g ≠ cg ∧ g ∈ groups1
    · rw [if_pos h1, if_pos ⟨h1.1, hperm.mem_iff.mp h1.2⟩]
    · rw [if_neg h1,
        if_neg
          (show ¬(g ≠ cg ∧ g ∈ groups2) from fun hh => h1 ⟨hh.1, hperm.mem_iff.mpr hh.2⟩)]
  · intro ys c w ko1 ko2 hperm
    apply List.ext_getElem
    · simp only [beeswarm_aux]
      rw [foldl_spread_length, foldl_spread_length]
    · intro j hj1 hj2
      have hj : j < ys.length := by
        have := beeswarm_aux_length ys c w ko1
        omega
      obtain ⟨pos, hpos, hjpos⟩ := mem_own_cluster ys j hj
      rw [← getD_eq_getElem _ j 0 hj1, ← getD_eq_getElem _ j 0 hj2]
      simp only [beeswarm_aux]
      rw [beeswarm_fold_getD (ys.map round_key) c w j (by simpa using hj) pos hpos hjpos _ _
          (by simp),
        beeswarm_fold_getD (ys.map round_key) c w j (by simpa using hj) pos hpos hjpos _ _
          (by simp)]
      by_cases hmem : (ys.map round_key).getD j 0 ∈ ko1 ∧
          1 < (cluster_of (ys.map round_key) ((ys.map round_key).getD j 0)).length
      · rw [if_pos hmem, if_pos ⟨hperm.mem_iff.mp hmem.1, hmem.2⟩]
      · rw [if_neg hmem, if_neg (fun hh => hmem ⟨hperm.mem_iff.mpr hh.1, hh.2⟩)]

unseal Rat.add Rat.mul Rat.sub Rat.inv Rat.ofScientific in
/-- Witness for C9: the group loop processed in two different orders, and
the beeswarm cluster fold processed in two different key orders, at
concrete inputs. -/
theorem C9_witness :
    lookupKV
          (compute_data_type_stats_with (fun x => x) (fun _ _ => 1)
              [⟨"c", "d", 0⟩, ⟨"c", "d", 1⟩, ⟨"g", "d", 5⟩] "d" "c" ["c", "g", "h"]).group_stats
          "g" =
        lookupKV
          (compute_data_type_stats_with (fun x => x) (fun _ _ => 1)
              [⟨"c", "d", 0⟩, ⟨"c", "d", 1⟩, ⟨"g", "d", 5⟩] "d" "c" ["h", "g", "c"]).group_stats
          "g" ∧
      beeswarm_aux [5, 5, 7] 0 1 [5000000, 7000000] =
        beeswarm_aux [5, 5, 7] 0 1 [7000000, 5000000] :=
  ⟨C9_theorem.1 (fun x => x) (fun _ _ => 1) [⟨"c", "d", 0⟩, ⟨"c", "d", 1⟩, ⟨"g", "d", 5⟩] "d" "c"
      ["c", "g", "h"] ["h", "g", "c"] (by decide) "g",
    C9_theorem.2 [5, 5, 7] 0 1 [5000000, 7000000] [7000000, 5000000] (by decide)⟩

unseal Rat.add Rat.mul Rat.sub Rat.inv Rat.ofScientific in
/-- C5: the beeswarm layout detects duplicates by rounding to 1e-6
precision (`round_key`), leaves singleton values at the center, spreads a
duplicate cluster of size `count` across `[center − width/2,
center + width/2]` in `width/(count − 1)` steps (the cluster member at rank
`pos` sits at `center − width/2 + pos·step`), placing mirror-rank members
symmetrically about the center and every position within the band; on
`values = [5,5,5]`, `center = 0`, `width = 0.6` it produces the three
evenly spaced offsets `[-0.3, 0, 0.3]`. -/
theorem C5_theorem :
    (∀ (ys : List ℚ) (c w : ℚ) (j : ℕ), j < ys.length →
        (cluster_of (ys.map round_key) ((ys.map round_key).getD j 0)).length = 1 →
        (beeswarm_positions ys c w).getD j 0 = c) ∧
      (∀ (ys : List ℚ) (c w : ℚ) (j : ℕ), j < ys.length →
          1 < (cluster_of (ys.map round_key) ((ys.map round_key).getD j 0)).length →
          ∃ pos, pos < (cluster_of (ys.map round_key) ((ys.map round_key).getD j 0)).length ∧
            (cluster_of (ys.map round_key) ((ys.map round_key).getD j 0))[pos]? = some j ∧
            (beeswarm_positions ys c w).getD j 0 =
              c - w / 2 +
                (pos : ℚ) *
                  (w /
                    (((cluster_of (ys.map round_key) ((ys.map round_key).getD j 0)).length - 1 :
                        ℕ) :
                      ℚ))) ∧
      (∀ (ys : List ℚ) (c w : ℚ) (j j' : ℕ), j < ys.length → j' < ys.length →
          (ys.map round_key).getD j 0 = (ys.map round_key).getD j' 0 →
          1 < (cluster_of (ys.map round_key) ((ys.map round_key).getD j 0)).length →
          ∀ pos pos',
            (cluster_of (ys.map round_key) ((ys.map round_key).getD j 0))[pos]? = some j →
            (cluster_of (ys.map round_key) ((ys.map round_key).getD j 0))[pos']? = some j' →
            pos + pos' =
              (cluster_of (ys.map round_key) ((ys.map round_key).getD j 0)).length - 1 →
            (beeswarm_positions ys c w).getD j 0 + (beeswarm_positions ys c w).getD j' 0 =
              2 * c) ∧
      (∀ (ys : List ℚ) (c w : ℚ) (j : ℕ), j < ys.length → 0 ≤ w →
          c - w / 2 ≤ (beeswarm_positions ys c w).getD j 0 ∧
            (beeswarm_positions ys c w).getD j 0 ≤ c + w / 2) ∧
      beeswarm_positions [5, 5, 5] 0 0.6 = [-0.3, 0, 0.3] := by
  have key_char : ∀ (ys : List ℚ) (c w : ℚ) (j pos : ℕ) (hj : j < ys.length)
      (hpos : pos < (cluster_of (ys.map round_key) ((ys.map round_key).getD j 0)).length),
      (cluster_of (ys.map round_key) ((ys.map round_key).getD j 0))[pos]? = some j →
      (beeswarm_positions ys c w).getD j 0 =
        if 1 < (cluster_of (ys.map round_key) ((ys.map round_key).getD j 0)).length then
          c - w / 2 +
            (pos : ℚ) *
              (w /
                (((cluster_of (ys.map round_key) ((ys.map round_key).getD j 0)).length - 1 : ℕ) :
                  ℚ))
        else c := by
    intro ys c w j pos hj hpos hsome
    have hget : (cluster_of (ys.map round_key) ((ys.map round_key).getD j 0)).get ⟨pos, hpos⟩ =
        j := by
      have := List.getElem?_eq_getElem hpos
      rw [hsome] at this
      simpa [List.get_eq_getElem] using this.symm
    exact beeswarm_getD_char ys c w j hj pos hpos hget
  refine ⟨?_, ?_, ?_, ?_, ?_⟩
  · intro ys c w j hj hone
    obtain ⟨pos, hpos, hget⟩ := mem_own_cluster ys j hj
    rw [beeswarm_getD_char ys c w j hj pos hpos hget, if_neg (by omega)]
  · intro ys c w j hj hbig
    obtain ⟨pos, hpos, hget⟩ := mem_own_cluster ys j hj
    refine ⟨pos, hpos, ?_, ?_⟩
    · rw [List.getElem?_eq_getElem hpos]
      simpa [List.get_eq_getElem] using hget
    · rw [beeswarm_getD_char ys c w j hj pos hpos hget, if_pos hbig]
  · intro ys c w j j' hj hj' hkey hbig pos pos' hsome hsome' hsum
    have hpos : pos < (cluster_of (ys.map round_key) ((ys.map round_key).getD j 0)).length :=
      List.getElem?_eq_some.mp hsome |>.1
    have hpos' : pos' < (cluster_of (ys.map round_key) ((ys.map round_key).getD j 0)).length :=
      List.getElem?_eq_some.mp hsome' |>.1
    have hv := key_char ys c w j pos hj hpos hsome
    have hsome'2 :
        (cluster_of (ys.map round_key) ((ys.map round_key).getD j' 0))[pos']? = some j' := by
      rw [← hkey]
      exact hsome'
    have hpos'2 : pos' < (cluster_of (ys.map round_key) ((ys.map round_key).getD j' 0)).length := by
      rw [← hkey]
      exact hpos'
    have hv' := key_char ys c w j' pos' hj' hpos'2 hsome'2
    rw [hv, if_pos hbig]
    rw [hv', if_pos (by rw [← hkey]; exact hbig)]
    have hL : 2 ≤ (cluster_of (ys.map round_key) ((ys.map round_key).getD j 0)).length := hbig
    set L := (cluster_of (ys.map round_key) ((ys.map round_key).getD j 0)).length with hLdef
    have hcast : ((pos : ℚ) + (pos' : ℚ)) = ((L - 1 : ℕ) : ℚ) := by
      rw [← Nat.cast_add, hsum]
    have hL1 : ((L - 1 : ℕ) : ℚ) ≠ 0 := by
      have : 1 ≤ L - 1 := by omega
      positivity
    rw [← hkey]
    rw [← hLdef]
    have hstep : ((L - 1 : ℕ) : ℚ) * (w / ((L - 1 : ℕ) : ℚ)) = w := by
      rw [mul_comm]
      exact div_mul_cancel₀ w hL1
    have hsum2 : (pos : ℚ) * (w / ((L - 1 : ℕ) : ℚ)) + (pos' : ℚ) * (w / ((L - 1 : ℕ) : ℚ)) =
        w := by
      rw [← add_mul, hcast, hstep]
    linarith [hsum2]
  · intro ys c w j hj hw
    obtain ⟨pos, hpos, hget⟩ := mem_own_cluster ys j hj
    rw [beeswarm_getD_char ys c w j hj pos hpos hget]
    by_cases hbig : 1 < (cluster_of (ys.map round_key) ((ys.map round_key).getD j 0)).length
    · rw [if_pos hbig]
      set L := (cluster_of (ys.map round_key) ((ys.map round_key).getD j 0)).length with hLdef
      have hstep : (0 : ℚ) ≤ w / ((L - 1 : ℕ) : ℚ) := by positivity
      have hposL : (pos : ℚ) ≤ ((L - 1 : ℕ) : ℚ) := by
        have : pos ≤ L - 1 := by omega
        exact_mod_cast this
      have hL1 : ((L - 1 : ℕ) : ℚ) ≠ 0 := by
        have : 1 ≤ L - 1 := by omega
        positivity
      have hnn : (0 : ℚ) ≤ (pos : ℚ) * (w / ((L - 1 : ℕ) : ℚ)) :=
        mul_nonneg (by positivity) hstep
      have hmul : (pos : ℚ) * (w / ((L - 1 : ℕ) : ℚ)) ≤
          ((L - 1 : ℕ) : ℚ) * (w / ((L - 1 : ℕ) : ℚ)) :=
        mul_le_mul_of_nonneg_right hposL hstep
      have hcancel : ((L - 1 : ℕ) : ℚ) * (w / ((L - 1 : ℕ) : ℚ)) = w := by
        rw [mul_comm]
        exact div_mul_cancel₀ w hL1
      constructor
      · linarith
      · linarith
    · rw [if_neg hbig]
      constructor <;> linarith
  · decide

unseal Rat.add Rat.mul Rat.sub Rat.inv Rat.ofScientific in
/-- Witness for C5: the beeswarm contracts evaluated at concrete inputs —
a singleton value stays at the center, a duplicate cluster member receives
the spread formula, mirror members are symmetric, and positions stay inside
the band. -/
theorem C5_witness :
    (beeswarm_positions [5, 9, 5] 0 0.6).getD 1 0 = 0 ∧
      (∃ pos,
          pos <
              (cluster_of ([5, 5, 5].map round_key)
                  (([5, 5, 5].map round_key).getD 0 0)).length ∧
            (cluster_of ([5, 5, 5].map round_key) (([5, 5, 5].map round_key).getD 0 0))[pos]? =
              some 0 ∧
            (beeswarm_positions [5, 5, 5] 0 0.6).getD 0 0 =
              0 - 0.6 / 2 +
                (pos : ℚ) *
                  (0.6 /
                    (((cluster_of ([5, 5, 5].map round_key)
                            (([5, 5, 5].map round_key).getD 0 0)).length - 1 : ℕ) :
                      ℚ))) ∧
      (beeswarm_positions [5, 5, 5] 0 0.6).getD 0 0 +
          (beeswarm_positions [5, 5, 5] 0 0.6).getD 2 0 = 2 * 0 ∧
      0 - 0.6 / 2 ≤ (beeswarm_positions [5, 5, 5] 0 0.6).getD 0 0 ∧
        (beeswarm_positions [5, 5, 5] 0 0.6).getD 0 0 ≤ 0 + 0.6 / 2 :=
  ⟨C5_theorem.1 [5, 9, 5] 0 0.6 1 (by decide) (by decide),
    C5_theorem.2.1 [5, 5, 5] 0 0.6 0 (by decide) (by decide),
    C5_theorem.2.2.1 [5, 5, 5] 0 0.6 0 2 (by decide) (by decide) (by decide) (by decide) 0 2
      (by decide) (by decide) (by decide),
    C5_theorem.2.2.2.1 [5, 5, 5] 0 0.6 0 (by decide) (by decide)⟩

/-! ## Sorted-list search lemmas for the box-plot whiskers -/

/-- On an ascending-sorted list, `find?` with an at-least-`bound` test
returns the least qualifying sample. -/
theorem find?_sorted_min (l : List ℚ) (hs : l.Sorted (· ≤ ·)) (bound w : ℚ)
    (h : l.find? (fun v => decide (bound ≤ v)) = some w) :
    w ∈ l ∧ bound ≤ w ∧ ∀ v ∈ l, bound ≤ v → w ≤ v := by
  refine ⟨List.mem_of_find?_eq_some h, by simpa using List.find?_some h, ?_⟩
  induction l with
  | nil => simp at h
  | cons x rest ih =>
    rcases List.sorted_cons.mp hs with ⟨hhead, htail⟩
    by_cases hx : bound ≤ x
    · rw [List.find?_cons_of_pos _ (by simpa using hx)] at h
      obtain rfl : x = w := by simpa using h
      intro v hv _
      rcases List.mem_cons.mp hv with rfl | hv
      · exact le_refl v
      · exact hhead v hv
    · rw [List.find?_cons_of_neg _ (by simpa using hx)] at h
      intro v hv hbv
      rcases List.mem_cons.mp hv with rfl | hv
      · exact absurd hbv hx
      · exact ih htail h v hv hbv

/-- On a descending-sorted list, `find?` with an at-most-`bound` test
returns the greatest qualifying sample. -/
theorem find?_sorted_max (l : List ℚ) (hs : l.Sorted (· ≥ ·)) (bound w : ℚ)
    (h : l.find? (fun v => decide (v ≤ bound)) = some w) :
    w ∈ l ∧ w ≤ bound ∧ ∀ v ∈ l, v ≤ bound → v ≤ w := by
  refine ⟨List.mem_of_find?_eq_some h, by simpa using List.find?_some h, ?_⟩
  induction l with
  | nil => simp at h
  | cons x rest ih =>
    rcases List.sorted_cons.mp hs with ⟨hhead, htail⟩
    by_cases hx : x ≤ bound
    · rw [List.find?_cons_of_pos _ (by simpa using hx)] at h
      obtain rfl : x = w := by simpa using h
      intro v hv _
      rcases List.mem_cons.mp hv with rfl | hv
      · exact le_refl v
      · exact hhead v hv
    · rw [List.find?_cons_of_neg _ (by simpa using hx)] at h
      intro v hv hbv
      rcases List.mem_cons.mp hv with rfl | hv
      · exact absurd hbv hx
      · exact ih htail h v hv hbv

/-- Indexing an ascending-sorted list is monotone. -/
theorem sorted_getD_mono (l : List ℚ) (hs : l.Sorted (· ≤ ·)) (i j : ℕ) (hij : i ≤ j)
    (hj : j < l.length) : l.getD i 0 ≤ l.getD j 0 := by
  rw [getD_eq_getElem l i 0 (lt_of_le_of_lt hij hj), getD_eq_getElem l j 0 hj]
  have := hs.rel_get_of_le (a := ⟨i, lt_of_le_of_lt hij hj⟩) (b := ⟨j, hj⟩) hij
  simpa [List.get_eq_getElem] using this

unseal Rat.add Rat.mul Rat.sub Rat.inv Rat.ofScientific in
/-- C2: on every non-empty ascending-sorted sample the box-plot layout uses
the integer-division index convention `q1 = sorted[n/4]`,
`median = sorted[n/2]`, `q3 = sorted[3n/4]`; the low whisker is the lowest
sample at least `q1 − 1.5·iqr` and the high whisker the highest sample at
most `q3 + 1.5·iqr` (the `unwrap_or` defaults `q1`/`q3` apply exactly when
no sample qualifies); and on `[1,…,8]` this gives `q1 = 3`, `median = 5`,
`q3 = 7`. -/
theorem C2_theorem :
    (∀ l : List ℚ, l ≠ [] → l.Sorted (· ≤ ·) →
        (boxplot_stats l).q1 = l.getD (l.length / 4) 0 ∧
          (boxplot_stats l).median = l.getD (l.length / 2) 0 ∧
          (boxplot_stats l).q3 = l.getD (3 * l.length / 4) 0 ∧
          ((boxplot_stats l).whisker_low ∈ l ∧
            (boxplot_stats l).q1 - 1.5 * ((boxplot_stats l).q3 - (boxplot_stats l).q1) ≤
              (boxplot_stats l).whisker_low ∧
            ∀ v ∈ l,
              (boxplot_stats l).q1 - 1.5 * ((boxplot_stats l).q3 - (boxplot_stats l).q1) ≤ v →
                (boxplot_stats l).whisker_low ≤ v) ∧
          ((boxplot_stats l).whisker_high ∈ l ∧
            (boxplot_stats l).whisker_high ≤
              (boxplot_stats l).q3 + 1.5 * ((boxplot_stats l).q3 - (boxplot_stats l).q1) ∧
            ∀ v ∈ l,
              v ≤ (boxplot_stats l).q3 + 1.5 * ((boxplot_stats l).q3 - (boxplot_stats l).q1) →
                v ≤ (boxplot_stats l).whisker_high)) ∧
      boxplot_stats [1, 2, 3, 4, 5, 6, 7, 8] =
        { q1 := 3, median := 5, q3 := 7, whisker_low := 1, whisker_high := 8 } := by
  constructor
  · intro l hne hs
    have hsort : l.insertionSort (· ≤ ·) = l := hs.insertionSort_eq
    have hn : 0 < l.length := List.length_pos.mpr hne
    have hq13 : l.getD (l.length / 4) 0 ≤ l.getD (3 * l.length / 4) 0 :=
      sorted_getD_mono l hs _ _ (by omega) (by omega)
    simp only [boxplot_stats, hsort]
    refine ⟨trivial, trivial, trivial, ?_, ?_⟩
    · have hq1mem : l.getD (l.length / 4) 0 ∈ l := getD_mem l _ 0 (by omega)
      have hq1b :
          l.getD (l.length / 4) 0 - 1.5 * (l.getD (3 * l.length / 4) 0 - l.getD (l.length / 4) 0) ≤
            l.getD (l.length / 4) 0 := by
        nlinarith [hq13]
      cases hfind : l.find?
          (fun v =>
            decide
              (l.getD (l.length / 4) 0 -
                  1.5 * (l.getD (3 * l.length / 4) 0 - l.getD (l.length / 4) 0) ≤
                v)) with
      | none =>
        exfalso
        have h2 := List.find?_eq_none.mp hfind _ hq1mem
        simp only [decide_eq_true_eq] at h2
        exact h2 hq1b
      | some w =>
        obtain ⟨hw1, hw2, hw3⟩ := find?_sorted_min l hs _ w hfind
        simp only [hfind, Option.getD_some]
        exact ⟨hw1, hw2, hw3⟩
    · have hrev : l.reverse.Sorted (· ≥ ·) := by
        rw [List.Sorted, List.pairwise_reverse]
        exact hs
      have hq3mem : l.getD (3 * l.length / 4) 0 ∈ l.reverse :=
        List.mem_reverse.mpr (getD_mem l _ 0 (by omega))
      have hq3b :
          l.getD (3 * l.length / 4) 0 ≤
            l.getD (3 * l.length / 4) 0 +
              1.5 * (l.getD (3 * l.length / 4) 0 - l.getD (l.length / 4) 0) := by
        nlinarith [hq13]
      cases hfind : l.reverse.find?
          (fun v =>
            decide
              (v ≤
                l.getD (3 * l.length / 4) 0 +
                  1.5 * (l.getD (3 * l.length / 4) 0 - l.getD (l.length / 4) 0))) with
      | none =>
        exfalso
        have h2 := List.find?_eq_none.mp hfind _ hq3mem
        simp only [decide_eq_true_eq] at h2
        exact h2 hq3b
      | some w =>
        obtain ⟨hw1, hw2, hw3⟩ := find?_sorted_max l.reverse hrev _ w hfind
        simp only [hfind, Option.getD_some]
        exact ⟨List.mem_reverse.mp hw1, hw2, fun v hv hbv =>
          hw3 v (List.mem_reverse.mpr hv) hbv⟩
  · decide

unseal Rat.add Rat.mul Rat.sub Rat.inv Rat.ofScientific in
/-- Witness for C2: the sorted-sample contract applied to `[1,…,8]`. -/
theorem C2_witness :
    (boxplot_stats [1, 2, 3, 4, 5, 6, 7, 8]).q1 =
        ([1, 2, 3, 4, 5, 6, 7, 8] : List ℚ).getD
          (([1, 2, 3, 4, 5, 6, 7, 8] : List ℚ).length / 4) 0 ∧
      (boxplot_stats [1, 2, 3, 4, 5, 6, 7, 8]).whisker_low ∈
        ([1, 2, 3, 4, 5, 6, 7, 8] : List ℚ) :=
  ⟨(C2_theorem.1 [1, 2, 3, 4, 5, 6, 7, 8] (by decide) (by decide)).1,
    ((C2_theorem.1 [1, 2, 3, 4, 5, 6, 7, 8] (by decide) (by decide)).2.2.2.1).1⟩

unseal Rat.add Rat.mul Rat.sub Rat.inv Rat.ofScientific in
/-- C3: `percentile` returns NaN on the empty list, the single element on a
one-element list, and otherwise the linear interpolation between
`sorted[⌊r⌋]` and `sorted[min ⌈r⌉ (n−1)]` at rank `r = (p/100)·(n−1)`
(stated for `p ∈ [0, 100]`, where the index arithmetic is in range); on
`[1,2,3,4]` the median is `2.5` and on `[1,2,3]` it is `2`. -/
theorem C3_theorem :
    (∀ p : ℚ, percentile [] p = F.nan) ∧
      (∀ v p : ℚ, percentile [v] p = F.val v) ∧
      (∀ (l : List ℚ) (p : ℚ), 2 ≤ l.length → 0 ≤ p → p ≤ 100 →
          percentile l p =
            F.val
              (l.getD (⌊(p / 100) * ((l.length - 1 : ℕ) : ℚ)⌋).toNat 0 *
                  (1 -
                    ((p / 100) * ((l.length - 1 : ℕ) : ℚ) -
                      ((⌊(p / 100) * ((l.length - 1 : ℕ) : ℚ)⌋).toNat : ℚ))) +
                l.getD (min (⌈(p / 100) * ((l.length - 1 : ℕ) : ℚ)⌉).toNat (l.length - 1)) 0 *
                  ((p / 100) * ((l.length - 1 : ℕ) : ℚ) -
                    ((⌊(p / 100) * ((l.length - 1 : ℕ) : ℚ)⌋).toNat : ℚ)))) ∧
      percentile [1, 2, 3, 4] 50 = F.val 2.5 ∧ percentile [1, 2, 3] 50 = F.val 2 := by
  refine ⟨fun p => rfl, fun v p => rfl, ?_, by decide, by decide⟩
  intro l p hlen hp0 hp100
  have hne : ¬l.length = 0 := by omega
  have hne1 : ¬l.length = 1 := by omega
  simp only [percentile, hne, hne1, if_false]
  have hm0 : (0 : ℚ) ≤ ((l.length - 1 : ℕ) : ℚ) := by positivity
  have hrank0 : 0 ≤ (p / 100) * ((l.length - 1 : ℕ) : ℚ) :=
    mul_nonneg (by positivity) hm0
  have hrankle : (p / 100) * ((l.length - 1 : ℕ) : ℚ) ≤ ((l.length - 1 : ℕ) : ℚ) := by
    have h1 : p / 100 ≤ 1 := (div_le_one (by norm_num)).mpr hp100
    calc (p / 100) * ((l.length - 1 : ℕ) : ℚ) ≤ 1 * ((l.length - 1 : ℕ) : ℚ) :=
          mul_le_mul_of_nonneg_right h1 hm0
      _ = ((l.length - 1 : ℕ) : ℚ) := one_mul _
  have hceilZ : ⌈(p / 100) * ((l.length - 1 : ℕ) : ℚ)⌉ ≤ ((l.length - 1 : ℕ) : ℤ) := by
    rw [Int.ceil_le]
    exact_mod_cast hrankle
  have hceil : (⌈(p / 100) * ((l.length - 1 : ℕ) : ℚ)⌉).toNat ≤ l.length - 1 := by omega
  have hmin : min (⌈(p / 100) * ((l.length - 1 : ℕ) : ℚ)⌉).toNat (l.length - 1) =
      (⌈(p / 100) * ((l.length - 1 : ℕ) : ℚ)⌉).toNat := min_eq_left hceil
  rw [hmin]
  by_cases heq : (⌊(p / 100) * ((l.length - 1 : ℕ) : ℚ)⌋).toNat =
      (⌈(p / 100) * ((l.length - 1 : ℕ) : ℚ)⌉).toNat
  · rw [if_pos heq, ← heq]
    congr 1
    ring
  · rw [if_neg heq]

unseal Rat.add Rat.mul Rat.sub Rat.inv Rat.ofScientific in
/-- Witness for C3: the empty, singleton, and interpolation contracts
applied at concrete inputs. -/
theorem C3_witness :
    percentile [] 50 = F.nan ∧ percentile [7] 3 = F.val 7 ∧
      percentile [10, 20, 30, 40] 50 =
        F.val
          (([10, 20, 30, 40] : List ℚ).getD
              (⌊(50 / 100 : ℚ) * ((([10, 20, 30, 40] : List ℚ).length - 1 : ℕ) : ℚ)⌋).toNat 0 *
              (1 -
                ((50 / 100 : ℚ) * ((([10, 20, 30, 40] : List ℚ).length - 1 : ℕ) : ℚ) -
                  ((⌊(50 / 100 : ℚ) *
                          ((([10, 20, 30, 40] : List ℚ).length - 1 : ℕ) : ℚ)⌋).toNat :
                    ℚ))) +
            ([10, 20, 30, 40] : List ℚ).getD
                (min
                  (⌈(50 / 100 : ℚ) *
                        ((([10, 20, 30, 40] : List ℚ).length - 1 : ℕ) : ℚ)⌉).toNat
                  (([10, 20, 30, 40] : List ℚ).length - 1)) 0 *
              ((50 / 100 : ℚ) * ((([10, 20, 30, 40] : List ℚ).length - 1 : ℕ) : ℚ) -
                ((⌊(50 / 100 : ℚ) *
                        ((([10, 20, 30, 40] : List ℚ).length - 1 : ℕ) : ℚ)⌋).toNat :
                  ℚ))) :=
  ⟨C3_theorem.1 50, C3_theorem.2.1 7 3,
    C3_theorem.2.2.1 [10, 20, 30, 40] 50 (by decide) (by decide) (by decide)⟩

/-- C4: Welch's t-test returns `(NaN, false)` when either sample has fewer
than two observations, returns exactly `(1.0, false)` when the computed
standard error is zero, and returns `(NaN, false)` when the Student's-t
distribution cannot be constructed (non-positive Welch–Satterthwaite
degrees of freedom) — in every case an ordinary value, never a propagated
error (the function is total by construction). -/
theorem C4_theorem :
    (∀ (sq : ℚ → ℚ) (cdf : ℚ → ℚ → ℚ) (g c : List ℚ), g.length < 2 ∨ c.length < 2 →
        perform_ttest sq cdf g c = (F.nan, false)) ∧
      (∀ (sq : ℚ → ℚ) (cdf : ℚ → ℚ → ℚ) (g c : List ℚ), 2 ≤ g.length → 2 ≤ c.length →
          sq (se_arg g c) = 0 → perform_ttest sq cdf g c = (F.val 1, false)) ∧
      ∀ (sq : ℚ → ℚ) (cdf : ℚ → ℚ → ℚ) (g c : List ℚ), 2 ≤ g.length → 2 ≤ c.length →
        sq (se_arg g c) ≠ 0 → welch_df g c ≤ 0 → perform_ttest sq cdf g c = (F.nan, false) := by
  refine ⟨?_, ?_, ?_⟩
  · intro sq cdf g c h
    have hq : (g.length : ℚ) < 2 ∨ (c.length : ℚ) < 2 := by
      rcases h with h | h
      · exact Or.inl (by exact_mod_cast h)
      · exact Or.inr (by exact_mod_cast h)
    simp only [perform_ttest, if_pos hq]
  · intro sq cdf g c hg hc hse
    have hq : ¬((g.length : ℚ) < 2 ∨ (c.length : ℚ) < 2) := by
      push_neg
      constructor
      · exact_mod_cast hg
      · exact_mod_cast hc
    simp only [perform_ttest, if_neg hq, hse, if_true]
  · intro sq cdf g c hg hc hse hdf
    have hq : ¬((g.length : ℚ) < 2 ∨ (c.length : ℚ) < 2) := by
      push_neg
      constructor
      · exact_mod_cast hg
      · exact_mod_cast hc
    simp only [perform_ttest, if_neg hq, if_neg hse, if_neg (not_lt.mpr hdf)]

unseal Rat.add Rat.mul Rat.sub Rat.inv Rat.ofScientific in
/-- Witness for C4: the three degradation paths evaluated at concrete
inputs.  For the third path the square-root parameter maps the zero
standard-error argument to 1 (a nonzero value), which drives the Welch
degrees of freedom to the `0/0 = 0` junk case that fails the `StudentsT`
construction. -/
theorem C4_witness :
    perform_ttest (fun x => x) (fun _ _ => 1) [3] [3, 3] = (F.nan, false) ∧
      perform_ttest (fun x => x) (fun _ _ => 1) [3, 3, 3] [3, 3, 3] = (F.val 1, false) ∧
      perform_ttest (fun _ => 1) (fun _ _ => 1) [3, 3, 3] [3, 3, 3] = (F.nan, false) :=
  ⟨C4_theorem.1 (fun x => x) (fun _ _ => 1) [3] [3, 3] (by decide),
    C4_theorem.2.1 (fun x => x) (fun _ _ => 1) [3, 3, 3] [3, 3, 3] (by decide) (by decide)
      (by decide),
    C4_theorem.2.2 (fun _ => 1) (fun _ _ => 1) [3, 3, 3] [3, 3, 3] (by decide) (by decide)
      (by decide) (by decide)⟩

/-- The Acklam core evaluates to exactly 0 at the center point `p = 1/2`,
for any square-root and logarithm routine: the center branch applies and
its numerator carries the factor `q = p − 0.5 = 0`. -/
theorem normal_ppf_core_half (sq ln : ℚ → ℚ) : normal_ppf_core sq ln (1/2) = 0 := by
  rw [normal_ppf_core, if_neg (by norm_num [acklam_p_low]), if_pos (by norm_num [acklam_p_low])]
  norm_num

/-- The renderer's `normal_ppf` is exactly 0 at `p = 1/2`. -/
theorem normal_ppf_renderer_half (sq ln : ℚ → ℚ) : normal_ppf_renderer sq ln (1/2) = 0 := by
  rw [normal_ppf_renderer, if_neg (by norm_num), if_neg (by norm_num), normal_ppf_core_half]

unseal Rat.add Rat.mul Rat.sub Rat.inv Rat.ofScientific in
/-- C1 counterexample: the two cited quantile-plot implementations disagree,
and the interactive plotter violates the claim.  For the single-sample
group `[7]` the plotter pairs the value with the raw quantile `0.5` (its
mapping is `i/(n-1)`, or `0.5` for `n = 1`, with no probit), while the
claim demands the normal score `probit(0.5) = 0`, which is what the static
renderer produces. -/
theorem C1_counterexample :
    plotter_qq_points [7] = [(0.5, 7)] ∧
      renderer_qq_points (fun x => x) (fun x => x) [7] = [(0, 7)] ∧ (0.5 : ℚ) ≠ 0 := by
  refine ⟨by decide, ?_, by decide⟩
  have h := normal_ppf_renderer_half (fun x : ℚ => x) (fun x : ℚ => x)
  simp only [renderer_qq_points]
  norm_num
  exact h

unseal Rat.add Rat.mul Rat.sub Rat.inv Rat.ofScientific in
/-- C1 (amended): only the static renderer's quantile plot
(`draw_qq_plot`, renderer.rs) sorts the samples, assigns the i-th of n the
Hazen plotting position `p = (i + 0.5)/n` and maps it through probit —
a single-sample group yielding the single point at normal score
`probit(0.5) = 0`.  The interactive plotter's quantile chart
(`draw_qq_chart`, plotter.rs) instead pairs the i-th sorted value with the
raw quantile `i/(n - 1)` (`0.5` when `n = 1`) and applies no probit. -/
theorem C1_theorem :
    (∀ (sq ln : ℚ → ℚ) (values : List ℚ) (i : ℕ), i < values.length →
        (renderer_qq_points sq ln values).getD i (0, 0) =
          (normal_ppf_renderer sq ln (((i : ℚ) + 0.5) / (values.length : ℚ)),
            (values.insertionSort (· ≤ ·)).getD i 0)) ∧
      (∀ (sq ln : ℚ → ℚ) (v : ℚ), renderer_qq_points sq ln [v] = [(0, v)]) ∧
      (∀ (values : List ℚ) (i : ℕ), 1 < values.length → i < values.length →
          (plotter_qq_points values).getD i (0, 0) =
            ((i : ℚ) / ((values.length - 1 : ℕ) : ℚ),
              (values.insertionSort (· ≤ ·)).getD i 0)) ∧
      ∀ v : ℚ, plotter_qq_points [v] = [(0.5, v)] := by
  have hlen : ∀ values : List ℚ,
      (values.insertionSort (· ≤ ·)).length = values.length := fun values =>
    (List.perm_insertionSort _ values).length_eq
  refine ⟨?_, ?_, ?_, ?_⟩
  · intro sq ln values i hi
    simp only [renderer_qq_points]
    rw [getD_eq_getElem _ i (0, 0) (by simpa [hlen values] using hi),
      getD_eq_getElem _ i 0 (by rw [hlen values]; exact hi)]
    simp [List.getElem_map, List.getElem_enum, hlen values]
  · intro sq ln v
    have h := normal_ppf_renderer_half sq ln
    simp only [renderer_qq_points]
    norm_num
    exact h
  · intro values i hbig hi
    simp only [plotter_qq_points]
    rw [getD_eq_getElem _ i (0, 0) (by simpa [hlen values] using hi),
      getD_eq_getElem _ i 0 (by rw [hlen values]; exact hi)]
    simp [List.getElem_map, List.getElem_enum, hlen values]
    exact fun hle => absurd hle (by omega)
  · intro v
    rfl

unseal Rat.add Rat.mul Rat.sub Rat.inv Rat.ofScientific in
/-- Witness for C1 (amended): both quantile mappings applied at concrete
inputs. -/
theorem C1_witness :
    (renderer_qq_points (fun x => x) (fun x => x) [3, 1]).getD 0 (0, 0) =
        (normal_ppf_renderer (fun x => x) (fun x => x)
            ((((0 : ℕ) : ℚ) + 0.5) / (([3, 1] : List ℚ).length : ℚ)),
          (([3, 1] : List ℚ).insertionSort (· ≤ ·)).getD 0 0) ∧
      renderer_qq_points (fun x => x) (fun x => x) [7] = [(0, 7)] ∧
      (plotter_qq_points [3, 1]).getD 1 (0, 0) =
        (((1 : ℕ) : ℚ) / ((([3, 1] : List ℚ).length - 1 : ℕ) : ℚ),
          (([3, 1] : List ℚ).insertionSort (· ≤ ·)).getD 1 0) ∧
      plotter_qq_points [7] = [(0.5, 7)] :=
  ⟨C1_theorem.1 (fun x => x) (fun x => x) [3, 1] 0 (by decide),
    C1_theorem.2.1 (fun x => x) (fun x => x) 7,
    C1_theorem.2.2.1 [3, 1] 1 (by decide) (by decide),
    C1_theorem.2.2.2 7⟩

/-! ## Soundness of the polynomial toolkit -/

theorem polyEvalQ_cast (cs : List ℚ) (q : ℚ) :
    ((polyEvalQ cs q : ℚ) : ℝ) = polyEvalR cs (q : ℝ) := by
  induction cs with
  | nil => simp [polyEvalQ, polyEvalR]
  | cons c rest ih => simp [polyEvalQ, polyEvalR, ih]

theorem polyEvalR_addPoly (xs : List ℚ) : ∀ (ys : List ℚ) (t : ℝ),
    polyEvalR (addPoly xs ys) t = polyEvalR xs t + polyEvalR ys t := by
  induction xs with
  | nil => intro ys t; simp [addPoly, polyEvalR]
  | cons x xs ih =>
    intro ys t
    cases ys with
    | nil => simp [addPoly, polyEvalR]
    | cons y ys =>
      simp only [addPoly, polyEvalR, ih, Rat.cast_add]
      ring

theorem polyEvalR_scalePoly (a : ℚ) (cs : List ℚ) (t : ℝ) :
    polyEvalR (scalePoly a cs) t = (a : ℝ) * polyEvalR cs t := by
  induction cs with
  | nil => simp [scalePoly, polyEvalR]
  | cons c rest ih =>
    simp only [scalePoly, List.map_cons, polyEvalR, Rat.cast_mul] at *
    rw [ih]
    ring

theorem polyEvalR_mulPoly (xs : List ℚ) : ∀ (ys : List ℚ) (t : ℝ),
    polyEvalR (mulPoly xs ys) t = polyEvalR xs t * polyEvalR ys t := by
  induction xs with
  | nil => intro ys t; simp [mulPoly, polyEvalR]
  | cons x xs ih =>
    intro ys t
    simp only [mulPoly, polyEvalR_addPoly, polyEvalR_scalePoly, polyEvalR, ih]
    ring

theorem polyEvalR_shiftPoly (cs : List ℚ) : ∀ (a : ℚ) (t : ℝ),
    polyEvalR (shiftPoly cs a) t = polyEvalR cs ((a : ℝ) + t) := by
  induction cs with
  | nil => intro a t; simp [shiftPoly, polyEvalR]
  | cons c rest ih =>
    intro a t
    simp only [shiftPoly, polyEvalR_addPoly, polyEvalR_scalePoly, polyEvalR, ih]
    ring

theorem polyEvalR_nonpos (cs : List ℚ) (t : ℝ) (hcs : ∀ c ∈ cs, c ≤ 0)
    (ht : 0 ≤ t) : polyEvalR cs t ≤ 0 := by
  induction cs with
  | nil => simp [polyEvalR]
  | cons c rest ih =>
    have hc : (c : ℝ) ≤ 0 := by exact_mod_cast hcs c (List.mem_cons_self c rest)
    have hr : polyEvalR rest t ≤ 0 := ih fun x hx => hcs x (List.mem_cons_of_mem c hx)
    simp only [polyEvalR]
    nlinarith

theorem polyEvalR_nonneg (cs : List ℚ) (t : ℝ) (hcs : ∀ c ∈ cs, 0 ≤ c)
    (ht : 0 ≤ t) : 0 ≤ polyEvalR cs t := by
  induction cs with
  | nil => simp [polyEvalR]
  | cons c rest ih =>
    have hc : (0 : ℝ) ≤ (c : ℝ) := by exact_mod_cast hcs c (List.mem_cons_self c rest)
    have hr : 0 ≤ polyEvalR rest t := ih fun x hx => hcs x (List.mem_cons_of_mem c hx)
    simp only [polyEvalR]
    nlinarith

theorem polyEvalR_neg_of_coeffs (cs : List ℚ) (q : ℝ) (hq : 0 ≤ q)
    (hhead : cs.headD 0 < 0) (htail : ∀ c ∈ cs.tail, c ≤ 0) :
    polyEvalR cs q < 0 := by
  cases cs with
  | nil => simp [List.headD] at hhead
  | cons c rest =>
    have hc : (c : ℝ) < 0 := by exact_mod_cast hhead
    have hr : polyEvalR rest q ≤ 0 := polyEvalR_nonpos rest q htail hq
    simp only [polyEvalR]
    nlinarith

theorem mul_polyEvalR_min_le (rs : List ℚ) (h : ℚ) (t : ℝ)
    (ht0 : 0 ≤ t) (hth : t ≤ (h : ℝ)) :
    (h : ℝ) * polyEvalR (minPoly0 rs) (h : ℝ) ≤ t * polyEvalR rs t := by
  induction rs with
  | nil => simp [minPoly0, polyEvalR]
  | cons r rs ih =>
    have hh0 : (0 : ℝ) ≤ (h : ℝ) := le_trans ht0 hth
    have hmin : polyEvalR (minPoly0 rs) (h : ℝ) ≤ 0 := by
      apply polyEvalR_nonpos _ _ _ hh0
      intro x hx
      simp only [minPoly0, List.mem_map] at hx
      obtain ⟨y, _, hy⟩ := hx
      rw [← hy]
      exact min_le_right y 0
    have h1 : (h : ℝ) * ((min r 0 : ℚ) : ℝ) ≤ t * (r : ℝ) := by
      rcases le_or_lt r 0 with hr | hr
      · rw [min_eq_left hr]
        have hrR : (r : ℝ) ≤ 0 := by exact_mod_cast hr
        nlinarith
      · rw [min_eq_right hr.le]
        have hrR : (0 : ℝ) ≤ (r : ℝ) := by exact_mod_cast hr.le
        push_cast
        nlinarith
    have h2 : (h : ℝ) * ((h : ℝ) * polyEvalR (minPoly0 rs) (h : ℝ)) ≤
        t * (t * polyEvalR rs t) := by
      have hc : (h : ℝ) * polyEvalR (minPoly0 rs) (h : ℝ) ≤ 0 :=
        mul_nonpos_iff.mpr (Or.inl ⟨hh0, hmin⟩)
      calc (h : ℝ) * ((h : ℝ) * polyEvalR (minPoly0 rs) (h : ℝ))
          ≤ t * ((h : ℝ) * polyEvalR (minPoly0 rs) (h : ℝ)) := by nlinarith
        _ ≤ t * (t * polyEvalR rs t) := mul_le_mul_of_nonneg_left ih ht0
    simp only [minPoly0, List.map_cons, polyEvalR]
    calc (h : ℝ) * (((min r 0 : ℚ) : ℝ) + (h : ℝ) * polyEvalR (List.map (fun c => min c 0) rs) (h : ℝ))
        = (h : ℝ) * ((min r 0 : ℚ) : ℝ) +
          (h : ℝ) * ((h : ℝ) * polyEvalR (List.map (fun c => min c 0) rs) (h : ℝ)) := by ring
      _ ≤ t * (r : ℝ) + t * (t * polyEvalR rs t) := by
          have h2' := h2
          simp only [minPoly0] at h2'
          linarith
      _ = t * ((r : ℝ) + t * polyEvalR rs t) := by ring

theorem lowBound_le (cs : List ℚ) (h : ℚ) (t : ℝ) (ht0 : 0 ≤ t)
    (hth : t ≤ (h : ℝ)) : ((lowBound cs h : ℚ) : ℝ) ≤ polyEvalR cs t := by
  cases cs with
  | nil => simp [lowBound, polyEvalR]
  | cons c rest =>
    have hkey := mul_polyEvalR_min_le rest h t ht0 hth
    have hcast : ((lowBound (c :: rest) h : ℚ) : ℝ) =
        (c : ℝ) + (h : ℝ) * polyEvalR (minPoly0 rest) (h : ℝ) := by
      simp only [lowBound, Rat.cast_add, Rat.cast_mul, polyEvalQ_cast]
    rw [hcast]
    simp only [polyEvalR]
    linarith

theorem piece_pos (cs : List ℚ) (a b : ℚ) (x : ℝ)
    (hlb : 0 < lowBound (shiftPoly cs a) (b - a))
    (hax : (a : ℝ) ≤ x) (hxb : x ≤ (b : ℝ)) : 0 < polyEvalR cs x := by
  have ht0 : (0 : ℝ) ≤ x - (a : ℝ) := by linarith
  have hth : x - (a : ℝ) ≤ ((b - a : ℚ) : ℝ) := by push_cast; linarith
  have hlbR : (0 : ℝ) < ((lowBound (shiftPoly cs a) (b - a) : ℚ) : ℝ) := by
    exact_mod_cast hlb
  have hle := lowBound_le (shiftPoly cs a) (b - a) (x - (a : ℝ)) ht0 hth
  have hshift := polyEvalR_shiftPoly cs a (x - (a : ℝ))
  rw [show (a : ℝ) + (x - (a : ℝ)) = x from by ring] at hshift
  linarith [hle, hshift.symm ▸ hle]

theorem checkPos_sound (cs : List ℚ) : ∀ ps : List ℚ, checkPos cs ps = true →
    ∀ x : ℝ, covers ps x → 0 < polyEvalR cs x := by
  intro ps
  induction ps with
  | nil => intro _ x hx; simp [covers] at hx
  | cons a ps ih =>
    cases ps with
    | nil => intro _ x hx; simp [covers] at hx
    | cons b rest =>
      intro hck x hx
      rw [checkPos, Bool.and_eq_true] at hck
      rcases hx with ⟨h1, h2⟩ | hx2
      · exact piece_pos cs a b x (of_decide_eq_true hck.1) h1 h2
      · exact ih hck.2 x hx2

theorem covers_of_le : ∀ (ps : List ℚ) (a : ℚ) (x : ℝ), ps ≠ [] →
    (a : ℝ) ≤ x → x ≤ ((ps.getLastD a : ℚ) : ℝ) → covers (a :: ps) x
  | [], _, _, h, _, _ => absurd rfl h
  | [b], a, x, _, h1, h2 => Or.inl ⟨h1, by simpa [List.getLastD] using h2⟩
  | b :: c :: rest, a, x, _, h1, h2 => by
    rcases le_or_lt x (b : ℝ) with hb | hb
    · exact Or.inl ⟨h1, hb⟩
    · exact Or.inr (covers_of_le (c :: rest) b x (by simp) hb.le
        (by simpa [List.getLastD] using h2))

/-! ## Positivity of the Acklam derivative numerators and denominators -/

set_option maxRecDepth 4000 in
unseal Rat.add Rat.mul Rat.sub Rat.inv Rat.ofScientific in
theorem checkPos_B : checkPos acklam_B gridB = true := by decide

set_option maxRecDepth 8000 in
unseal Rat.add Rat.mul Rat.sub Rat.inv Rat.ofScientific in
theorem checkPos_N : checkPos acklam_N gridN = true := by decide

unseal Rat.add Rat.mul Rat.sub Rat.inv Rat.ofScientific in
theorem P_headD_neg : acklam_P.headD 0 < 0 := by decide

unseal Rat.add Rat.mul Rat.sub Rat.inv Rat.ofScientific in
theorem P_tail_nonpos : ∀ c ∈ acklam_P.tail, c ≤ 0 := by decide

unseal Rat.add Rat.mul Rat.sub Rat.inv Rat.ofScientific in
theorem D_coeffs_nonneg : ∀ c ∈ [acklam_d3, acklam_d2, acklam_d1, acklam_d0], (0 : ℚ) ≤ c := by
  decide

theorem B_pos_on (x : ℝ) (h0 : 0 ≤ x) (h1 : x ≤ ((qq_r_max : ℚ) : ℝ)) :
    0 < polyEvalR acklam_B x := by
  apply checkPos_sound acklam_B gridB checkPos_B x
  refine covers_of_le gridB.tail 0 x (by simp [gridB]) (by simpa using h0) ?_
  rw [show (gridB.tail.getLastD 0) = qq_r_max from rfl]
  exact h1

theorem N_pos_on (x : ℝ) (h0 : 0 ≤ x) (h1 : x ≤ ((qq_r_max : ℚ) : ℝ)) :
    0 < polyEvalR acklam_N x := by
  apply checkPos_sound acklam_N gridN checkPos_N x
  refine covers_of_le gridN.tail 0 x (by simp [gridN]) (by simpa using h0) ?_
  rw [show (gridN.tail.getLastD 0) = qq_r_max from rfl]
  exact h1

theorem D_pos (q : ℝ) (hq : 0 ≤ q) : 0 < polyEvalR acklam_D q := by
  have h : 0 ≤ polyEvalR [acklam_d3, acklam_d2, acklam_d1, acklam_d0] q :=
    polyEvalR_nonneg _ q D_coeffs_nonneg hq
  have he : polyEvalR acklam_D q =
      1 + q * polyEvalR [acklam_d3, acklam_d2, acklam_d1, acklam_d0] q := by
    norm_num [acklam_D, polyEvalR]
  rw [he]
  nlinarith

theorem P_neg (q : ℝ) (hq : 0 ≤ q) : polyEvalR acklam_P q < 0 :=
  polyEvalR_neg_of_coeffs acklam_P q hq P_headD_neg P_tail_nonpos

/-! ## Derivatives of the two Acklam branch functions -/

theorem hasDerivAt_polyEvalR (cs : List ℚ) (x : ℝ) :
    HasDerivAt (fun y => polyEvalR cs y) (polyEvalR (derivCoeffs cs) x) x := by
  induction cs with
  | nil => simpa [polyEvalR, derivCoeffs] using hasDerivAt_const x (0 : ℝ)
  | cons c rest ih =>
    have h1 : HasDerivAt (fun y : ℝ => (c : ℝ) + y * polyEvalR rest y)
        (0 + (1 * polyEvalR rest x + x * polyEvalR (derivCoeffs rest) x)) x :=
      (hasDerivAt_const x ((c : ℝ))).add ((hasDerivAt_id' x).mul ih)
    have h2 : polyEvalR (derivCoeffs (c :: rest)) x =
        0 + (1 * polyEvalR rest x + x * polyEvalR (derivCoeffs rest) x) := by
      simp only [derivCoeffs, polyEvalR_addPoly, polyEvalR]
      push_cast
      ring
    rw [h2]
    exact h1

theorem tail_hasDerivAt (q : ℝ) (hD : polyEvalR acklam_D q ≠ 0) :
    HasDerivAt acklamTail (polyEvalR acklam_P q / (polyEvalR acklam_D q) ^ 2) q := by
  have h := (hasDerivAt_polyEvalR acklam_C q).div (hasDerivAt_polyEvalR acklam_D q) hD
  have hP : polyEvalR acklam_P q =
      polyEvalR (derivCoeffs acklam_C) q * polyEvalR acklam_D q -
        polyEvalR acklam_C q * polyEvalR (derivCoeffs acklam_D) q := by
    simp only [acklam_P, polyEvalR_addPoly, polyEvalR_mulPoly, polyEvalR_scalePoly]
    push_cast
    ring
  rw [hP]
  exact h

theorem tail_strictAnti : StrictAntiOn acklamTail (Set.Ici (0 : ℝ)) := by
  apply strictAntiOn_of_deriv_neg (convex_Ici 0)
  · intro x hx
    exact (tail_hasDerivAt x (D_pos x hx).ne').continuousAt.continuousWithinAt
  · intro x hx
    rw [interior_Ici] at hx
    rw [(tail_hasDerivAt x (D_pos x hx.le).ne').deriv]
    exact div_neg_of_neg_of_pos (P_neg x hx.le) (pow_pos (D_pos x hx.le) 2)

theorem center_hasDerivAt (p : ℝ)
    (hB : polyEvalR acklam_B ((p - 0.5) * (p - 0.5)) ≠ 0) :
    HasDerivAt acklamCenter
      (polyEvalR acklam_N ((p - 0.5) * (p - 0.5)) /
        (polyEvalR acklam_B ((p - 0.5) * (p - 0.5))) ^ 2) p := by
  have hu : HasDerivAt (fun y : ℝ => y - 0.5) 1 p := (hasDerivAt_id' p).sub_const 0.5
  have hr : HasDerivAt (fun y : ℝ => (y - 0.5) * (y - 0.5))
      (1 * (p - 0.5) + (p - 0.5) * 1) p := hu.mul hu
  have hAc : HasDerivAt (fun y : ℝ => polyEvalR acklam_A ((y - 0.5) * (y - 0.5)))
      (polyEvalR (derivCoeffs acklam_A) ((p - 0.5) * (p - 0.5)) *
        (1 * (p - 0.5) + (p - 0.5) * 1)) p :=
    (hasDerivAt_polyEvalR acklam_A ((p - 0.5) * (p - 0.5))).comp p hr
  have hBc : HasDerivAt (fun y : ℝ => polyEvalR acklam_B ((y - 0.5) * (y - 0.5)))
      (polyEvalR (derivCoeffs acklam_B) ((p - 0.5) * (p - 0.5)) *
        (1 * (p - 0.5) + (p - 0.5) * 1)) p :=
    (hasDerivAt_polyEvalR acklam_B ((p - 0.5) * (p - 0.5))).comp p hr
  have hnum : HasDerivAt
      (fun y : ℝ => polyEvalR acklam_A ((y - 0.5) * (y - 0.5)) * (y - 0.5))
      (polyEvalR (derivCoeffs acklam_A) ((p - 0.5) * (p - 0.5)) *
          (1 * (p - 0.5) + (p - 0.5) * 1) * (p - 0.5) +
        polyEvalR acklam_A ((p - 0.5) * (p - 0.5)) * 1) p := hAc.mul hu
  have hdiv := hnum.div hBc hB
  have hNid : ∀ x : ℝ, polyEvalR acklam_N x =
      (2 * x * polyEvalR (derivCoeffs acklam_A) x + polyEvalR acklam_A x) *
          polyEvalR acklam_B x -
        2 * x * polyEvalR acklam_A x * polyEvalR (derivCoeffs acklam_B) x := by
    intro x
    simp only [acklam_N, polyEvalR_addPoly, polyEvalR_mulPoly, polyEvalR_scalePoly, polyEvalR]
    push_cast
    ring
  convert hdiv using 1
  rw [hNid]
  ring

/-! ## Cast values of the branch constants -/

theorem plowR_eq : ((acklam_p_low : ℚ) : ℝ) = 0.02425 := by
  norm_num [acklam_p_low]

theorem rmaxR_eq : ((qq_r_max : ℚ) : ℝ) = 3621409 / 16000000 := by
  norm_num [qq_r_max]

theorem qloR_eq : ((qq_q_lo : ℚ) : ℝ) = 2727393869 / 1000000000 := by
  norm_num [qq_q_lo]

theorem r_mem_of_center (p : ℝ) (h1 : ((acklam_p_low : ℚ) : ℝ) ≤ p)
    (h2 : p ≤ 1 - ((acklam_p_low : ℚ) : ℝ)) :
    0 ≤ (p - 0.5) * (p - 0.5) ∧ (p - 0.5) * (p - 0.5) ≤ ((qq_r_max : ℚ) : ℝ) := by
  rw [plowR_eq] at h1 h2
  rw [rmaxR_eq]
  refine ⟨mul_self_nonneg _, ?_⟩
  nlinarith [mul_nonneg (by linarith : (0 : ℝ) ≤ 0.47575 - (p - 0.5))
    (by linarith : (0 : ℝ) ≤ (p - 0.5) + 0.47575)]

theorem center_strictMono : StrictMonoOn acklamCenter
    (Set.Icc ((acklam_p_low : ℚ) : ℝ) (1 - ((acklam_p_low : ℚ) : ℝ))) := by
  apply strictMonoOn_of_deriv_pos (convex_Icc _ _)
  · intro p hp
    obtain ⟨hr0, hr1⟩ := r_mem_of_center p hp.1 hp.2
    exact (center_hasDerivAt p (B_pos_on _ hr0 hr1).ne').continuousAt.continuousWithinAt
  · intro p hp
    rw [interior_Icc] at hp
    obtain ⟨hr0, hr1⟩ := r_mem_of_center p hp.1.le hp.2.le
    rw [(center_hasDerivAt p (B_pos_on _ hr0 hr1).ne').deriv]
    exact div_pos (N_pos_on _ hr0 hr1) (pow_pos (B_pos_on _ hr0 hr1) 2)

/-! ## Bridging the source's Horner forms to the coefficient lists -/

theorem hornerA_eq (r : ℝ) : polyEvalR acklam_A r =
    ((((((acklam_a0 : ℝ) * r + (acklam_a1 : ℝ)) * r + (acklam_a2 : ℝ)) * r +
        (acklam_a3 : ℝ)) * r + (acklam_a4 : ℝ)) * r + (acklam_a5 : ℝ)) := by
  simp only [acklam_A, polyEvalR]
  ring

theorem hornerB_eq (r : ℝ) : polyEvalR acklam_B r =
    ((((((acklam_b0 : ℝ) * r + (acklam_b1 : ℝ)) * r + (acklam_b2 : ℝ)) * r +
        (acklam_b3 : ℝ)) * r + (acklam_b4 : ℝ)) * r + 1) := by
  simp only [acklam_B, polyEvalR]
  push_cast
  ring

theorem hornerC_eq (q : ℝ) : polyEvalR acklam_C q =
    ((((((acklam_c0 : ℝ) * q + (acklam_c1 : ℝ)) * q + (acklam_c2 : ℝ)) * q +
        (acklam_c3 : ℝ)) * q + (acklam_c4 : ℝ)) * q + (acklam_c5 : ℝ)) := by
  simp only [acklam_C, polyEvalR]
  ring

theorem hornerD_eq (q : ℝ) : polyEvalR acklam_D q =
    (((((acklam_d0 : ℝ) * q + (acklam_d1 : ℝ)) * q + (acklam_d2 : ℝ)) * q +
        (acklam_d3 : ℝ)) * q + 1) := by
  simp only [acklam_D, polyEvalR]
  push_cast
  ring

theorem plow_le_phigh : ((acklam_p_low : ℚ) : ℝ) ≤ 1 - ((acklam_p_low : ℚ) : ℝ) := by
  rw [plowR_eq]
  norm_num

theorem core_eq_center (p : ℝ) (h1 : ((acklam_p_low : ℚ) : ℝ) ≤ p)
    (h2 : p ≤ 1 - ((acklam_p_low : ℚ) : ℝ)) :
    normal_ppf_core_real p = acklamCenter p := by
  rw [normal_ppf_core_real, if_neg (not_lt.mpr h1), if_pos h2, acklamCenter,
    hornerA_eq, hornerB_eq]

theorem core_eq_tail_low (p : ℝ) (hp : p < ((acklam_p_low : ℚ) : ℝ)) :
    normal_ppf_core_real p = acklamTail (Real.sqrt (-2 * Real.log p)) := by
  rw [normal_ppf_core_real, if_pos hp, acklamTail, hornerC_eq, hornerD_eq]

theorem core_eq_tail_high (p : ℝ) (hp : 1 - ((acklam_p_low : ℚ) : ℝ) < p) :
    normal_ppf_core_real p = -acklamTail (Real.sqrt (-2 * Real.log (1 - p))) := by
  have h1 : ¬p < ((acklam_p_low : ℚ) : ℝ) :=
    not_lt.mpr (le_trans plow_le_phigh hp.le)
  rw [normal_ppf_core_real, if_neg h1, if_neg (not_le.mpr hp), acklamTail,
    hornerC_eq, hornerD_eq, ← neg_div]

/-! ## The tail substitution `q = √(−2 ln p)` and its range -/

theorem exp_qlo_half_sq_le :
    Real.exp (((qq_q_lo : ℚ) : ℝ) ^ 2 / 2) ≤ 4000 / 97 := by
  have hx1 := Real.exp_bound'
    (by norm_num : (0 : ℝ) ≤ 4649173323 / 5000000000)
    (by norm_num : (4649173323 : ℝ) / 5000000000 ≤ 1)
    (by norm_num : 0 < 13)
  have hchain : Real.exp (((qq_q_lo : ℚ) : ℝ) ^ 2 / 2) ≤
      Real.exp ((4 : ℕ) * ((4649173323 : ℝ) / 5000000000)) := by
    rw [Real.exp_le_exp, qloR_eq]
    push_cast
    norm_num
  rw [Real.exp_nat_mul] at hchain
  refine hchain.trans ?_
  refine (pow_le_pow_left₀ (Real.exp_pos _).le hx1 4).trans ?_
  have hf0 : Nat.factorial 0 = 1 := rfl
  have hf1 : Nat.factorial 1 = 1 := rfl
  have hf2 : Nat.factorial 2 = 2 := rfl
  have hf3 : Nat.factorial 3 = 6 := rfl
  have hf4 : Nat.factorial 4 = 24 := rfl
  have hf5 : Nat.factorial 5 = 120 := rfl
  have hf6 : Nat.factorial 6 = 720 := rfl
  have hf7 : Nat.factorial 7 = 5040 := rfl
  have hf8 : Nat.factorial 8 = 40320 := rfl
  have hf9 : Nat.factorial 9 = 362880 := rfl
  have hf10 : Nat.factorial 10 = 3628800 := rfl
  have hf11 : Nat.factorial 11 = 39916800 := rfl
  have hf12 : Nat.factorial 12 = 479001600 := rfl
  have hf13 : Nat.factorial 13 = 6227020800 := rfl
  simp only [Finset.sum_range_succ, Finset.sum_range_zero, hf0, hf1, hf2, hf3,
    hf4, hf5, hf6, hf7, hf8, hf9, hf10, hf11, hf12, hf13]
  push_cast
  norm_num

theorem log_plow_le :
    Real.log ((acklam_p_low : ℚ) : ℝ) ≤ -(((qq_q_lo : ℚ) : ℝ) ^ 2 / 2) := by
  rw [Real.log_le_iff_le_exp (by rw [plowR_eq]; norm_num), Real.exp_neg,
    inv_eq_one_div, le_div_iff₀ (Real.exp_pos _)]
  have h1 := exp_qlo_half_sq_le
  rw [plowR_eq]
  nlinarith [Real.exp_pos (((qq_q_lo : ℚ) : ℝ) ^ 2 / 2)]

theorem qlo_sq_le_arg (p : ℝ) (h0 : 0 < p) (hp : p ≤ ((acklam_p_low : ℚ) : ℝ)) :
    ((qq_q_lo : ℚ) : ℝ) ^ 2 ≤ -2 * Real.log p := by
  have h1 : Real.log p ≤ Real.log ((acklam_p_low : ℚ) : ℝ) := Real.log_le_log h0 hp
  have h2 := log_plow_le
  linarith

theorem qlo_le_sqrt (p : ℝ) (h0 : 0 < p) (hp : p ≤ ((acklam_p_low : ℚ) : ℝ)) :
    ((qq_q_lo : ℚ) : ℝ) ≤ Real.sqrt (-2 * Real.log p) := by
  have h := qlo_sq_le_arg p h0 hp
  have hy : (0 : ℝ) ≤ -2 * Real.log p := le_trans (sq_nonneg _) h
  rw [Real.le_sqrt (by rw [qloR_eq]; norm_num) hy]
  exact h

theorem sqrt_arg_anti (p1 p2 : ℝ) (h0 : 0 < p1) (h12 : p1 < p2) (h21 : p2 ≤ 1) :
    Real.sqrt (-2 * Real.log p2) < Real.sqrt (-2 * Real.log p1) := by
  apply Real.sqrt_lt_sqrt
  · have := Real.log_nonpos (by linarith : (0 : ℝ) ≤ p2) h21
    linarith
  · have := Real.log_lt_log h0 h12
    linarith

theorem qlo_lt_sqrt (p : ℝ) (h0 : 0 < p) (hp : p < ((acklam_p_low : ℚ) : ℝ)) :
    ((qq_q_lo : ℚ) : ℝ) < Real.sqrt (-2 * Real.log p) := by
  have h1 := qlo_le_sqrt ((acklam_p_low : ℚ) : ℝ) (by rw [plowR_eq]; norm_num) le_rfl
  have h2 := sqrt_arg_anti p ((acklam_p_low : ℚ) : ℝ) h0 hp (by rw [plowR_eq]; norm_num)
  linarith

theorem qloR_nonneg : (0 : ℝ) ≤ ((qq_q_lo : ℚ) : ℝ) := by
  rw [qloR_eq]
  norm_num

/-! ## Exact rational comparisons across the branch boundaries -/

unseal Rat.add Rat.mul Rat.sub Rat.inv Rat.ofScientific in
theorem cross_low_q : (polyEvalQ acklam_C qq_q_lo / polyEvalQ acklam_D qq_q_lo : ℚ) <
    polyEvalQ acklam_A ((acklam_p_low - 1/2) * (acklam_p_low - 1/2)) * (acklam_p_low - 1/2) /
      polyEvalQ acklam_B ((acklam_p_low - 1/2) * (acklam_p_low - 1/2)) := by
  decide

unseal Rat.add Rat.mul Rat.sub Rat.inv Rat.ofScientific in
theorem vqlo_neg_q : (polyEvalQ acklam_C qq_q_lo / polyEvalQ acklam_D qq_q_lo : ℚ) < 0 := by
  decide

theorem acklamTail_cast (q : ℚ) : acklamTail ((q : ℚ) : ℝ) =
    ((polyEvalQ acklam_C q / polyEvalQ acklam_D q : ℚ) : ℝ) := by
  rw [acklamTail, Rat.cast_div, polyEvalQ_cast, polyEvalQ_cast]

theorem acklamCenter_cast (p : ℚ) : acklamCenter ((p : ℚ) : ℝ) =
    ((polyEvalQ acklam_A ((p - 1/2) * (p - 1/2)) * (p - 1/2) /
        polyEvalQ acklam_B ((p - 1/2) * (p - 1/2)) : ℚ) : ℝ) := by
  have h05 : ((p : ℝ)) - 0.5 = (((p - 1/2 : ℚ)) : ℝ) := by
    push_cast
    norm_num
  rw [acklamCenter, h05]
  push_cast [polyEvalQ_cast]
  ring

theorem cross_low : acklamTail ((qq_q_lo : ℚ) : ℝ) < acklamCenter ((acklam_p_low : ℚ) : ℝ) := by
  rw [acklamTail_cast, acklamCenter_cast]
  exact_mod_cast cross_low_q

theorem vqlo_neg : acklamTail ((qq_q_lo : ℚ) : ℝ) < 0 := by
  rw [acklamTail_cast]
  exact_mod_cast vqlo_neg_q

theorem acklamCenter_one_sub (p : ℝ) : acklamCenter (1 - p) = -acklamCenter p := by
  rw [acklamCenter, acklamCenter,
    show (1 : ℝ) - p - 0.5 = -(p - 0.5) from by ring,
    show (-(p - 0.5)) * (-(p - 0.5)) = (p - 0.5) * (p - 0.5) from by ring,
    mul_neg, neg_div]

/-! ## Assembly of the three branches -/

theorem ppf_real_eq_core (p : ℝ) (h0 : 0 < p) (h1 : p < 1) :
    normal_ppf_real p = normal_ppf_core_real p := by
  rw [normal_ppf_real, if_neg (not_le.mpr h0), if_neg (not_le.mpr h1)]

theorem core_low_lt (p : ℝ) (h0 : 0 < p) (hp : p < ((acklam_p_low : ℚ) : ℝ)) :
    normal_ppf_core_real p < acklamTail ((qq_q_lo : ℚ) : ℝ) := by
  rw [core_eq_tail_low p hp]
  exact tail_strictAnti (Set.mem_Ici.mpr qloR_nonneg)
    (Set.mem_Ici.mpr (Real.sqrt_nonneg _)) (qlo_lt_sqrt p h0 hp)

theorem center_ge_plow (p : ℝ) (h1 : ((acklam_p_low : ℚ) : ℝ) ≤ p)
    (h2 : p ≤ 1 - ((acklam_p_low : ℚ) : ℝ)) :
    acklamCenter ((acklam_p_low : ℚ) : ℝ) ≤ acklamCenter p := by
  rcases eq_or_lt_of_le h1 with he | hlt
  · rw [he]
  · exact (center_strictMono ⟨le_refl _, plow_le_phigh⟩ ⟨h1, h2⟩ hlt).le

theorem center_le_phigh (p : ℝ) (h1 : ((acklam_p_low : ℚ) : ℝ) ≤ p)
    (h2 : p ≤ 1 - ((acklam_p_low : ℚ) : ℝ)) :
    acklamCenter p ≤ acklamCenter (1 - ((acklam_p_low : ℚ) : ℝ)) := by
  rcases eq_or_lt_of_le h2 with he | hlt
  · rw [he]
  · exact (center_strictMono ⟨h1, h2⟩ ⟨plow_le_phigh, le_refl _⟩ hlt).le

theorem core_high_gt (p : ℝ) (hp : 1 - ((acklam_p_low : ℚ) : ℝ) < p) (h1 : p < 1) :
    -acklamTail ((qq_q_lo : ℚ) : ℝ) < normal_ppf_core_real p := by
  rw [core_eq_tail_high p hp]
  have h1p0 : 0 < 1 - p := by linarith
  have h1pl : 1 - p < ((acklam_p_low : ℚ) : ℝ) := by linarith
  have h := tail_strictAnti (Set.mem_Ici.mpr qloR_nonneg)
    (Set.mem_Ici.mpr (Real.sqrt_nonneg _)) (qlo_lt_sqrt (1 - p) h1p0 h1pl)
  linarith

theorem core_strictMono_aux (p1 p2 : ℝ) (h1 : 0 < p1) (h4 : p2 < 1) (h12 : p1 < p2) :
    normal_ppf_core_real p1 < normal_ppf_core_real p2 := by
  rcases lt_or_le p1 ((acklam_p_low : ℚ) : ℝ) with c1 | c1
  · rcases lt_or_le p2 ((acklam_p_low : ℚ) : ℝ) with c2 | c2
    · rw [core_eq_tail_low p1 c1, core_eq_tail_low p2 c2]
      exact tail_strictAnti (Set.mem_Ici.mpr (Real.sqrt_nonneg _))
        (Set.mem_Ici.mpr (Real.sqrt_nonneg _)) (sqrt_arg_anti p1 p2 h1 h12 h4.le)
    · rcases le_or_lt p2 (1 - ((acklam_p_low : ℚ) : ℝ)) with c3 | c3
      · have ha := core_low_lt p1 h1 c1
        have hb := cross_low
        have hc := center_ge_plow p2 c2 c3
        rw [core_eq_center p2 c2 c3]
        linarith
      · have ha := core_low_lt p1 h1 c1
        have hb := vqlo_neg
        have hc := core_high_gt p2 c3 h4
        linarith
  · rcases le_or_lt p2 (1 - ((acklam_p_low : ℚ) : ℝ)) with c3 | c3
    · rw [core_eq_center p1 c1 (le_trans h12.le c3),
        core_eq_center p2 (le_trans c1 h12.le) c3]
      exact center_strictMono ⟨c1, le_trans h12.le c3⟩ ⟨le_trans c1 h12.le, c3⟩ h12
    · rcases le_or_lt p1 (1 - ((acklam_p_low : ℚ) : ℝ)) with c4 | c4
      · rw [core_eq_center p1 c1 c4]
        have ha := center_le_phigh p1 c1 c4
        have hb := acklamCenter_one_sub ((acklam_p_low : ℚ) : ℝ)
        have hc := cross_low
        have hd := core_high_gt p2 c3 h4
        linarith
      · rw [core_eq_tail_high p1 c4, core_eq_tail_high p2 c3]
        have h1p2 : 0 < 1 - p2 := by linarith
        have h := tail_strictAnti (Set.mem_Ici.mpr (Real.sqrt_nonneg _))
          (Set.mem_Ici.mpr (Real.sqrt_nonneg _))
          (sqrt_arg_anti (1 - p2) (1 - p1) h1p2 (by linarith) (by linarith))
        linarith

theorem core_antisym (p : ℝ) :
    normal_ppf_core_real (1 - p) = -normal_ppf_core_real p := by
  rcases lt_or_le p ((acklam_p_low : ℚ) : ℝ) with c1 | c1
  · have hh : 1 - ((acklam_p_low : ℚ) : ℝ) < 1 - p := by linarith
    rw [core_eq_tail_high (1 - p) hh, core_eq_tail_low p c1,
      show (1 : ℝ) - (1 - p) = p from by ring]
  · rcases le_or_lt p (1 - ((acklam_p_low : ℚ) : ℝ)) with c2 | c2
    · have d1 : ((acklam_p_low : ℚ) : ℝ) ≤ 1 - p := by
        have := plow_le_phigh
        linarith
      have d2 : 1 - p ≤ 1 - ((acklam_p_low : ℚ) : ℝ) := by linarith
      rw [core_eq_center (1 - p) d1 d2, core_eq_center p c1 c2, acklamCenter_one_sub]
    · have hl : 1 - p < ((acklam_p_low : ℚ) : ℝ) := by linarith
      rw [core_eq_tail_low (1 - p) hl, core_eq_tail_high p c2, neg_neg]

theorem ppf_real_half : normal_ppf_real (1 / 2 : ℝ) = 0 := by
  rw [ppf_real_eq_core _ (by norm_num) (by norm_num)]
  rw [core_eq_center _ (by rw [plowR_eq]; norm_num) (by rw [plowR_eq]; norm_num)]
  rw [acklamCenter]
  norm_num

/-- C8: over the real numbers, the probit approximation `normal_ppf`
(renderer.rs lines 178–231; plotter.rs's copy differs only in its
out-of-range sentinels, which are irrelevant on `(0, 1)`) satisfies
`normal_ppf(0.5) = 0` (hence certainly within `1e-8` of `0`), is strictly
monotonically increasing on the open interval `(0, 1)`, and satisfies the
exact reflection identity `normal_ppf(1 − p) = −normal_ppf(p)` for every
`p ∈ (0, 1)`. -/
theorem C8_theorem :
    |normal_ppf_real (1 / 2)| ≤ 1 / 100000000 ∧
      StrictMonoOn normal_ppf_real (Set.Ioo (0 : ℝ) 1) ∧
      ∀ p ∈ Set.Ioo (0 : ℝ) 1, normal_ppf_real (1 - p) = -normal_ppf_real p := by
  refine ⟨?_, ?_, ?_⟩
  · rw [ppf_real_half]
    norm_num
  · intro p1 hp1 p2 hp2 h12
    obtain ⟨h1a, h1b⟩ := hp1
    obtain ⟨h2a, h2b⟩ := hp2
    rw [ppf_real_eq_core p1 h1a h1b, ppf_real_eq_core p2 h2a h2b]
    exact core_strictMono_aux p1 p2 h1a h2b h12
  · intro p hp
    obtain ⟨h0, h1⟩ := hp
    rw [ppf_real_eq_core p h0 h1, ppf_real_eq_core (1 - p) (by linarith) (by linarith)]
    exact core_antisym p

/-- Witness for C8: strict monotonicity and the reflection identity of
`normal_ppf` applied at the concrete points `1/4 < 3/4`. -/
theorem C8_witness :
    normal_ppf_real (1 / 4) < normal_ppf_real (3 / 4) ∧
      normal_ppf_real (3 / 4) = -normal_ppf_real (1 / 4) := by
  constructor
  · exact C8_theorem.2.1 (Set.mem_Ioo.mpr ⟨by norm_num, by norm_num⟩)
      (Set.mem_Ioo.mpr ⟨by norm_num, by norm_num⟩) (by norm_num)
  · have h := C8_theorem.2.2 (1 / 4) (Set.mem_Ioo.mpr ⟨by norm_num, by norm_num⟩)
    norm_num at h
    exact h
